import Mathlib

/-!
Verification of `scripts/sync_chapters.py`.

The script is a single-pass pipeline: it discovers numbered chapter files in
the project root, normalizes their contents and filenames, mirrors them into
`content/docs/`, and regenerates three index documents.  We give a shallow
embedding of the script over `List Char` strings, with the filesystem modelled
as association lists of (name, content) pairs, and prove the specification
claims about it.
-/

set_option maxHeartbeats 1000000

abbrev Chars := List Char

def chars (s : String) : Chars := s.toList

/-- Whitespace as recognized by Python's `str.strip` / `str.isspace` / regex `\s`
(ASCII whitespace, the C1 control block FS..US, NEL, NBSP and the Unicode
space separators). -/
def isPySpace (c : Char) : Bool :=
  let n := c.toNat
  n == 0x20 || decide (0x9 ≤ n ∧ n ≤ 0xd) || decide (0x1c ≤ n ∧ n ≤ 0x1f) ||
  n == 0x85 || n == 0xa0 || n == 0x1680 || decide (0x2000 ≤ n ∧ n ≤ 0x200a) ||
  n == 0x2028 || n == 0x2029 || n == 0x202f || n == 0x205f || n == 0x3000

/-- Line boundary characters of Python's `str.splitlines`. -/
def isLineBreak (c : Char) : Bool :=
  let n := c.toNat
  n == 0xa || n == 0xb || n == 0xc || n == 0xd || decide (0x1c ≤ n ∧ n ≤ 0x1e) ||
  n == 0x85 || n == 0x2028 || n == 0x2029

theorem isPySpace_of_isLineBreak {c : Char} (h : isLineBreak c = true) : isPySpace c = true := by
  simp only [isLineBreak, isPySpace, Bool.or_eq_true, beq_iff_eq, decide_eq_true_eq] at *
  omega

/-- `str.lstrip()`. -/
def lstrip (s : Chars) : Chars := s.dropWhile isPySpace

/-- `str.rstrip()`. -/
def rstrip : Chars → Chars
  | [] => []
  | c :: s =>
    match rstrip s with
    | [] => if isPySpace c then [] else [c]
    | r => c :: r

/-- `str.strip()`. -/
def pyStrip (s : Chars) : Chars := lstrip (rstrip s)

/-- `str.startswith(p)`. -/
def startsWith (s p : Chars) : Bool := p.isPrefixOf s

/-- Helper for `splitlines`: Python treats the two-character sequence CR LF as a
single line boundary; we first collapse it to a lone CR and then split on
single boundary characters. -/
def collapseCRLF : Chars → Chars
  | '\r' :: '\n' :: s => '\r' :: collapseCRLF s
  | c :: s => c :: collapseCRLF s
  | [] => []

mutual
/-- `str.splitlines` scanner: `cur` holds the current line, reversed. -/
def splitGo (cur : Chars) : Chars → List Chars
  | [] => [cur.reverse]
  | c :: s => if isLineBreak c then cur.reverse :: splitEnd s else splitGo (c :: cur) s

/-- `str.splitlines` scanner, state directly after a line boundary. -/
def splitEnd : Chars → List Chars
  | [] => []
  | c :: s => if isLineBreak c then [] :: splitEnd s else splitGo [c] s
end

/-- `str.splitlines()`. -/
def splitlines (s : Chars) : List Chars :=
  match s with
  | [] => []
  | _ => splitGo [] (collapseCRLF s)

/-- `"\n".join(lines)`. -/
def joinLines : List Chars → Chars
  | [] => []
  | [l] => l
  | l :: ls => l ++ '\n' :: joinLines ls

/-- `_find_first_h1` loop: `inCode` is the fence flag, `idx` the index of the
next line to examine. -/
def find_first_h1_go (inCode : Bool) (idx : Nat) : List Chars → Option (Nat × Chars)
  | [] => none
  | line :: rest =>
    let stripped := pyStrip line
    if startsWith stripped (chars "```") then find_first_h1_go (!inCode) (idx + 1) rest
    else if inCode then find_first_h1_go inCode (idx + 1) rest
    else if startsWith stripped (chars "# ") then some (idx, pyStrip (stripped.drop 2))
    else find_first_h1_go inCode (idx + 1) rest

/-- `_find_first_h1`: index and text of the first H1 outside code fences
(`none` models the raised `ValueError`). -/
def find_first_h1 (lines : List Chars) : Option (Nat × Chars) :=
  find_first_h1_go false 0 lines

/-- The character class of `INVALID_FILENAME_CHARS`. -/
def invalidFilenameChars : Chars := chars "\\/:*?\"<>|"

/-- `INVALID_FILENAME_CHARS.sub("", s)`. -/
def removeInvalid (s : Chars) : Chars := s.filter (fun c => !invalidFilenameChars.contains c)

/-- Worker for whitespace-run collapsing; the flag records whether the scan
is inside a whitespace run whose replacement space was already emitted. -/
def collapseWsGo : Bool → Chars → Chars
  | _, [] => []
  | false, c :: s =>
    if isPySpace c then ' ' :: collapseWsGo true s else c :: collapseWsGo false s
  | true, c :: s =>
    if isPySpace c then collapseWsGo true s else c :: collapseWsGo false s

/-- `re.sub(r"\s+", " ", s)`: replace each maximal whitespace run by a space. -/
def collapseWs (s : Chars) : Chars := collapseWsGo false s

theorem collapseWsGo_true : ∀ s : Chars,
    collapseWsGo true s = collapseWsGo false (s.dropWhile isPySpace)
  | [] => rfl
  | c :: s => by
    show (if isPySpace c then collapseWsGo true s else c :: collapseWsGo false s) =
      collapseWsGo false ((c :: s).dropWhile isPySpace)
    rw [List.dropWhile_cons]
    by_cases hc : isPySpace c
    · rw [if_pos hc, if_pos hc]
      exact collapseWsGo_true s
    · rw [if_neg hc, if_neg hc]
      show c :: collapseWsGo false s =
        (if isPySpace c then ' ' :: collapseWsGo true s else c :: collapseWsGo false s)
      rw [if_neg hc]

theorem collapseWs_nil : collapseWs [] = [] := rfl

theorem collapseWs_cons (c : Char) (s : Chars) :
    collapseWs (c :: s) = if isPySpace c then ' ' :: collapseWs (s.dropWhile isPySpace)
      else c :: collapseWs s := by
  show (if isPySpace c then ' ' :: collapseWsGo true s else c :: collapseWsGo false s) = _
  by_cases hc : isPySpace c
  · rw [if_pos hc, if_pos hc, collapseWsGo_true]
    rfl
  · rw [if_neg hc, if_neg hc]
    rfl

theorem collapseWsInduct (P : Chars → Prop) (case1 : P [])
    (case2 : ∀ c s, isPySpace c = true → P (s.dropWhile isPySpace) → P (c :: s))
    (case3 : ∀ c s, ¬ isPySpace c = true → P s → P (c :: s)) (s : Chars) : P s := by
  have hall : ∀ n (t : Chars), t.length ≤ n → P t := by
    intro n
    induction n with
    | zero =>
      intro t ht
      rw [List.eq_nil_of_length_eq_zero (Nat.le_zero.1 ht)]
      exact case1
    | succ n ih =>
      intro t ht
      cases t with
      | nil => exact case1
      | cons c u =>
        simp only [List.length_cons] at ht
        by_cases hc : isPySpace c
        · refine case2 c u hc (ih _ ?_)
          have h1 := (u.dropWhile_sublist isPySpace).length_le
          omega
        · exact case3 c u hc (ih u (by omega))
  exact hall s.length s (le_refl _)

/-- `_sanitize_filename`. -/
def sanitize_filename (title : Chars) : Chars := collapseWs (pyStrip (removeInvalid title))

/-- Decimal digit character. -/
def digitChar (d : Nat) : Char := Char.ofNat (48 + d)

/-- Big-endian digit rendering, structurally recursive on a fuel bound. -/
def pyStrNatAux : Nat → Nat → Chars
  | 0, _ => []
  | fuel + 1, n => if n = 0 then [] else pyStrNatAux fuel (n / 10) ++ [digitChar (n % 10)]

/-- `str(n)` for a natural number. -/
def pyStrNat (n : Nat) : Chars :=
  if n = 0 then ['0'] else pyStrNatAux n n

/-- Python's `f"{n:02d}"`: zero-pad to width 2, wider numbers unchanged. -/
def fmt02 (n : Nat) : Chars := if n < 10 then '0' :: pyStrNat n else pyStrNat n

/-- Canonical chapter filename `f"{number:02d} - {sanitized}.md"` as built by
`_normalize_root_file`. -/
def expectedName (num : Nat) (heading : Chars) : Chars :=
  fmt02 num ++ chars " - " ++ sanitize_filename heading ++ chars ".md"

/-- Documentation mirror filename `f"chapter-{number:02d}.md"`. -/
def chapterDocName (num : Nat) : Chars := chars "chapter-" ++ fmt02 num ++ chars ".md"

def isDigitChar (c : Char) : Bool := decide (48 ≤ c.toNat ∧ c.toNat ≤ 57)

def digitVal (c : Char) : Nat := c.toNat - 48

/-- `int(ds)` for a nonempty string of decimal digits. -/
def digitsToNat (ds : Chars) : Nat := ds.foldl (fun a c => 10 * a + digitVal c) 0

/-- One backtracking split for the `\s*(.+)\.md$` tail of `CHAPTER_PATTERN`:
the first `k` characters go to `\s*`, the rest must be a nonempty run of
non-newline characters followed by the literal `.md` at end of string. -/
def titleOkAt (s : Chars) (k : Nat) : Bool :=
  (s.take k).all isPySpace &&
  decide (4 ≤ (s.drop k).length) &&
  ((s.drop k).drop ((s.drop k).length - 3) == chars ".md") &&
  ((s.drop k).take ((s.drop k).length - 3)).all (fun c => c != '\n')

/-- Whether `\s*(.+)\.md$` matches `s` (some split succeeds). -/
def titleOk (s : Chars) : Bool := (List.range s.length).any (titleOkAt s)

/-- `CHAPTER_PATTERN.match(name)`, returning `int(match.group(1))`:
the name must consist of a nonempty leading digit run, optional whitespace,
a hyphen, optional whitespace, a nonempty title and the `.md` suffix. -/
def chapterMatch (name : Chars) : Option Nat :=
  let ds := name.takeWhile isDigitChar
  if ds.isEmpty then none
  else
    match (name.dropWhile isDigitChar).dropWhile isPySpace with
    | '-' :: rest => if titleOk rest then some (digitsToNat ds) else none
    | _ => none

/-- A line is blank when it strips to the empty string. -/
def isBlank (l : Chars) : Bool := (pyStrip l).isEmpty

/-- The pure content transformation of `_normalize_root_file`: strip leading
blank lines, find the first H1, rebuild as heading line, blank line, body
(leading blank lines stripped), with trailing whitespace collapsed to one
newline.  Returns the rebuilt text and the heading, or `none` when no H1
exists. -/
def normalizeText (text : Chars) : Option (Chars × Chars) :=
  match find_first_h1 ((splitlines text).dropWhile isBlank) with
  | none => none
  | some (i, heading) =>
    some (rstrip (joinLines (('#' :: ' ' :: heading) :: [] ::
      ((((splitlines text).dropWhile isBlank).drop (i + 1)).dropWhile isBlank))) ++ ['\n'],
      heading)

/-- Fatal error kinds of the script: `ValueError` from `_find_first_h1`,
`FileExistsError` from the rename collision check, and `FileNotFoundError`
from reading a path that does not exist. -/
inductive SyncError
  | missingHeading
  | nameCollision (target : Chars)
  | fileNotFound (name : Chars)
deriving DecidableEq

/-- Observable filesystem writes performed by a run. -/
inductive Ev
  | writeRoot (name content : Chars)
  | renameRoot (oldName newName : Chars)
  | writeDocs (name content : Chars)
  | writeContent (content : Chars)
deriving DecidableEq

/-- A directory: files as (name, contents) pairs in enumeration order. -/
abbrev Dir := List (Chars × Chars)

def lookupFile (d : Dir) (name : Chars) : Option Chars :=
  (d.find? (fun f => f.1 == name)).map (fun f => f.2)

/-- `path.write_text(content)`: overwrite an existing file in place, or create
a new one. -/
def writeFile (d : Dir) (name content : Chars) : Dir :=
  if d.any (fun f => f.1 == name) then
    d.map (fun f => if f.1 == name then (name, content) else f)
  else d ++ [(name, content)]

/-- `path.rename(newPath)` within one directory. -/
def renameFile (d : Dir) (oldName newName : Chars) : Dir :=
  d.map (fun f => if f.1 == oldName then (newName, f.2) else f)

/-- The filesystem state the script touches: the project root directory,
`content/docs/`, and the file `content/_index.md` (`index.md` lives in the
root directory itself). -/
structure FS where
  root : Dir
  docs : Dir
  contentIndex : Option Chars
deriving DecidableEq

/-- The root directory after the conditional write-back of step 6: the rebuilt
content is written only when it differs from the original. -/
def writtenRoot (root : Dir) (name text norm : Chars) : Dir :=
  if norm == text then root else writeFile root name norm

/-- The write events of the conditional write-back. -/
def writtenEvs (name text norm : Chars) : List Ev :=
  if norm == text then [] else [.writeRoot name norm]

/-- `_normalize_root_file`: read, rebuild content, write back when changed,
then rename to the canonical filename unless a different file occupies it.
Returns the updated root directory, the writes performed, and the
`(number, heading, final filename)` triple or the error raised. -/
def normalize_root_file (root : Dir) (name : Chars) (num : Nat) :
    Dir × List Ev × Except SyncError (Nat × Chars × Chars) :=
  match lookupFile root name with
  | none => (root, [], .error (.fileNotFound name))
  | some text =>
    match normalizeText text with
    | none => (root, [], .error .missingHeading)
    | some (norm, heading) =>
      if name == expectedName num heading then
        (writtenRoot root name text norm, writtenEvs name text norm, .ok (num, heading, name))
      else if (writtenRoot root name text norm).any (fun f => f.1 == expectedName num heading) then
        (writtenRoot root name text norm, writtenEvs name text norm,
         .error (.nameCollision (expectedName num heading)))
      else
        (renameFile (writtenRoot root name text norm) name (expectedName num heading),
         writtenEvs name text norm ++ [.renameRoot name (expectedName num heading)],
         .ok (num, heading, expectedName num heading))

/-- The chapter candidates of `_gather_chapters`: every root file whose name
matches `CHAPTER_PATTERN`, with its parsed numeric prefix, in enumeration
order. -/
def chapterCandidates (root : Dir) : List (Nat × Chars) :=
  root.filterMap (fun f => (chapterMatch f.1).map (fun n => (n, f.1)))

/-- Ordered insertion placing `x` after every element with a strictly smaller
key and before the first element with a greater-or-equal key. -/
def insertAsc (x : Nat × Chars) : List (Nat × Chars) → List (Nat × Chars)
  | [] => [x]
  | y :: ys => if y.1 < x.1 then y :: insertAsc x ys else x :: y :: ys

/-- `candidates.sort(key=lambda item: item[0])`: a stable ascending sort by
numeric key. -/
def sortByKey (l : List (Nat × Chars)) : List (Nat × Chars) := l.foldr insertAsc []

/-- The normalization loop of `_gather_chapters` over the sorted candidate
filenames, assigning sequential numbers from `idx`. -/
def gatherGo (root : Dir) : List Chars → Nat →
    Dir × List Ev × Except SyncError (List (Nat × Chars × Chars))
  | [], _ => (root, [], .ok [])
  | name :: rest, idx =>
    match normalize_root_file root name idx with
    | (root1, evs1, .error e) => (root1, evs1, .error e)
    | (root1, evs1, .ok t) =>
      match gatherGo root1 rest (idx + 1) with
      | (root2, evs2, .error e) => (root2, evs1 ++ evs2, .error e)
      | (root2, evs2, .ok ts) => (root2, evs1 ++ evs2, .ok (t :: ts))

/-- `_gather_chapters`. -/
def gather_chapters (root : Dir) :
    Dir × List Ev × Except SyncError (List (Nat × Chars × Chars)) :=
  gatherGo root ((sortByKey (chapterCandidates root)).map (fun p => p.2)) 1

/-- `_write_docs_copy`: read the root file and write it verbatim to
`content/docs/chapter-NN.md`. -/
def write_docs_copy (root docs : Dir) (num : Nat) (filename : Chars) :
    Dir × List Ev × Except SyncError Unit :=
  match lookupFile root filename with
  | none => (docs, [], .error (.fileNotFound filename))
  | some content =>
    (writeFile docs (chapterDocName num) content,
     [.writeDocs (chapterDocName num) content], .ok ())

/-- The mirroring loop of `main`. -/
def writeDocsCopies (root docs : Dir) : List (Nat × Chars × Chars) →
    Dir × List Ev × Except SyncError Unit
  | [] => (docs, [], .ok ())
  | t :: ts =>
    match write_docs_copy root docs t.1 t.2.2 with
    | (docs1, evs1, .error e) => (docs1, evs1, .error e)
    | (docs1, evs1, .ok _) =>
      match writeDocsCopies root docs1 ts with
      | (docs2, evs2, r) => (docs2, evs1 ++ evs2, r)

def DOCS_INTRO : Chars := chars "This section collects the full Shopify app development playbook, guiding you from platform fundamentals through extensions, deployment, and monetization."

def ROOT_INTRO : Chars := chars "Welcome to a hands-on journey through Shopify app development. This book reframes the platform through familiar full-stack patterns so you can build production-ready apps with confidence."

def ROOT_CLOSING : Chars := chars "Work through the chapters in order or dive into the sections you need most, and refer back as your Shopify apps evolve."

def ROOT_OVERVIEW : Chars := chars "This curriculum walks you through building modern Shopify apps, mapping each concept to familiar full-stack patterns so you can ship production features faster."

/-- Characters `urllib.parse.quote` leaves unescaped (default `safe='/'`). -/
def quoteSafeChar (c : Char) : Bool :=
  decide ('A' ≤ c ∧ c ≤ 'Z') || decide ('a' ≤ c ∧ c ≤ 'z') ||
  decide ('0' ≤ c ∧ c ≤ '9') || c == '_' || c == '.' || c == '-' || c == '~' || c == '/'

/-- UTF-8 encoding of a character, as byte values. -/
def utf8Bytes (c : Char) : List Nat :=
  let n := c.toNat
  if n < 0x80 then [n]
  else if n < 0x800 then [0xc0 + n / 0x40, 0x80 + n % 0x40]
  else if n < 0x10000 then [0xe0 + n / 0x1000, 0x80 + n / 0x40 % 0x40, 0x80 + n % 0x40]
  else [0xf0 + n / 0x40000, 0x80 + n / 0x1000 % 0x40, 0x80 + n / 0x40 % 0x40,
        0x80 + n % 0x40]

def hexDigitU (n : Nat) : Char := if n < 10 then Char.ofNat (48 + n) else Char.ofNat (55 + n)

/-- `urllib.parse.quote(s)`. -/
def urlQuote (s : Chars) : Chars :=
  (s.map (fun c =>
    if quoteSafeChar c then [c]
    else (utf8Bytes c).flatMap (fun b => ['%', hexDigitU (b / 16), hexDigitU (b % 16)]))).flatten

/-- The text of `content/docs/_index.md`. -/
def docsIndexText (chaps : List (Nat × Chars × Chars)) : Chars :=
  rstrip (joinLines
    ([chars "---", chars "title: \"Documentation\"", chars "bookCollapseSection: false",
      chars "weight: 1", chars "---", [], DOCS_INTRO, []] ++
     chaps.map (fun t => chars "- [" ++ t.2.1 ++ chars "](./chapter-" ++ fmt02 t.1 ++ chars ")"))) ++ ['\n']

/-- The text of `content/_index.md`. -/
def rootIndexText (bookTitle : Chars) (chaps : List (Nat × Chars × Chars)) : Chars :=
  rstrip (joinLines
    ([chars "---", chars "title: \"" ++ bookTitle ++ chars "\"", chars "---", [],
      ROOT_INTRO, [], chars "## Chapter Guide", []] ++
     chaps.map (fun t => chars "- [" ++ t.2.1 ++ chars "](./docs/chapter-" ++ fmt02 t.1 ++ chars ")") ++
     [[], ROOT_CLOSING])) ++ ['\n']

/-- The text of the root `index.md`. -/
def siteIndexText (bookTitle : Chars) (chaps : List (Nat × Chars × Chars)) : Chars :=
  rstrip (joinLines
    ([chars "---", chars "layout: home", chars "---", [], '#' :: ' ' :: bookTitle, [],
      ROOT_OVERVIEW, [], chars "## Chapter Guide", []] ++
     chaps.map (fun t => chars "- [" ++ t.2.1 ++ chars "](./" ++ urlQuote t.2.2 ++ chars ")"))) ++ ['\n']

/-- `_build_index_files`: regenerate the three index documents (no-op when
there are no chapters). -/
def build_index_files (fs : FS) (chaps : List (Nat × Chars × Chars)) : FS × List Ev :=
  match chaps with
  | [] => (fs, [])
  | t0 :: _ =>
    let docsText := docsIndexText chaps
    let rootText := rootIndexText t0.2.1 chaps
    let idxText := siteIndexText t0.2.1 chaps
    ({ root := writeFile fs.root (chars "index.md") idxText,
       docs := writeFile fs.docs (chars "_index.md") docsText,
       contentIndex := some rootText },
     [.writeDocs (chars "_index.md") docsText, .writeContent rootText,
      .writeRoot (chars "index.md") idxText])

/-- The outcome of one invocation of the script. -/
structure RunOut where
  fs : FS
  evs : List Ev
  chaps : List (Nat × Chars × Chars)
  result : Except SyncError Unit

/-- Process exit status: 0 on success; 1 both for the caught
`FileExistsError` (explicit `return 1`) and for an uncaught exception. -/
def exitCode (r : Except SyncError Unit) : Nat :=
  match r with
  | .ok _ => 0
  | .error _ => 1

/-- Diagnostic printed to the error stream: the formatted message for the
caught collision, the interpreter traceback for uncaught errors. -/
def stderrOf (r : Except SyncError Unit) : Option Chars :=
  match r with
  | .ok _ => none
  | .error (.nameCollision t) =>
    some (chars "Error: Target filename already exists: " ++ t)
  | .error .missingHeading =>
    some (chars "Traceback (most recent call last): ... ValueError: No H1 heading found")
  | .error (.fileNotFound n) =>
    some (chars "Traceback (most recent call last): ... FileNotFoundError: " ++ n)

/-- `main()`: discover and normalize, then mirror, then rebuild indexes. -/
def main' (fs : FS) : RunOut :=
  match gather_chapters fs.root with
  | (root1, evs1, .error e) => ⟨{ fs with root := root1 }, evs1, [], .error e⟩
  | (root1, evs1, .ok chaps) =>
    match writeDocsCopies root1 fs.docs chaps with
    | (docs1, evs2, .error e) =>
      ⟨{ root := root1, docs := docs1, contentIndex := fs.contentIndex },
       evs1 ++ evs2, chaps, .error e⟩
    | (docs1, evs2, .ok _) =>
      let out := build_index_files
        { root := root1, docs := docs1, contentIndex := fs.contentIndex } chaps
      ⟨out.1, evs1 ++ evs2 ++ out.2, chaps, .ok ()⟩

/-! ### Basic lemmas about stripping -/

theorem rstrip_nil : rstrip [] = [] := rfl

theorem rstrip_eq_nil_iff {s : Chars} : rstrip s = [] ↔ ∀ c ∈ s, isPySpace c = true := by
  induction s with
  | nil => simp [rstrip]
  | cons c s ih =>
    simp only [rstrip]
    cases h : rstrip s with
    | nil =>
      constructor
      · intro hc
        by_cases hw : isPySpace c
        · intro x hx
          rcases List.mem_cons.1 hx with rfl | hx
          · exact hw
          · exact (ih.1 h) x hx
        · simp [hw] at hc
      · intro hall
        simp [hall c (List.mem_cons_self c s)]
    | cons r rs =>
      constructor
      · intro hc; cases hc
      · intro hall
        exact absurd (ih.2 (fun x hx => hall x (List.mem_cons_of_mem c hx))) (by simp [h])

theorem rstrip_append (a b : Chars) :
    rstrip (a ++ b) = if rstrip b = [] then rstrip a else a ++ rstrip b := by
  induction a with
  | nil =>
    by_cases hb : rstrip b = [] <;> simp [hb, rstrip]
  | cons c a ih =>
    by_cases hb : rstrip b = []
    · rw [if_pos hb] at ih ⊢
      rw [List.cons_append, rstrip, ih, rstrip]
    · rw [if_neg hb] at ih ⊢
      rw [List.cons_append, rstrip, ih]
      cases hx : a ++ rstrip b with
      | nil => exact absurd (List.append_eq_nil.1 hx).2 hb
      | cons y ys => rw [List.cons_append c a (rstrip b), hx]

theorem rstrip_singleton_of_not_space {c : Char} (h : isPySpace c = false) :
    rstrip [c] = [c] := by
  simp [rstrip, h]

theorem rstrip_append_singleton {a : Chars} {c : Char} (h : isPySpace c = false) :
    rstrip (a ++ [c]) = a ++ [c] := by
  rw [rstrip_append, rstrip_singleton_of_not_space h]
  simp

theorem rstrip_idem (s : Chars) : rstrip (rstrip s) = rstrip s := by
  induction s with
  | nil => rfl
  | cons c s ih =>
    rw [rstrip]
    cases h : rstrip s with
    | nil =>
      by_cases hw : isPySpace c
      · simp [hw, rstrip]
      · simp [hw, rstrip]
    | cons r rs =>
      rw [h] at ih
      have : rstrip (c :: r :: rs) = c :: rstrip (r :: rs) := by
        rw [rstrip, ih]
      rw [this, ih]

theorem exists_rstrip_suffix (s : Chars) :
    ∃ w, s = rstrip s ++ w ∧ ∀ c ∈ w, isPySpace c = true := by
  induction s with
  | nil => exact ⟨[], rfl, by simp⟩
  | cons c s ih =>
    obtain ⟨w, hw, hws⟩ := ih
    rw [rstrip]
    cases h : rstrip s with
    | nil =>
      by_cases hc : isPySpace c
      · refine ⟨c :: s, by simp [hc], ?_⟩
        intro x hx
        rcases List.mem_cons.1 hx with rfl | hx
        · exact hc
        · rw [h] at hw
          simp only [List.nil_append] at hw
          rw [hw] at hx
          exact hws x hx
      · refine ⟨w, ?_, hws⟩
        rw [h] at hw
        simp only [List.nil_append] at hw
        simp [hc, ← hw]
    | cons r rs =>
      rw [h] at hw
      exact ⟨w, by rw [hw]; simp, hws⟩

theorem rstrip_getLast_not_space (s : Chars) :
    rstrip s = [] ∨ ∃ a c, rstrip s = a ++ [c] ∧ isPySpace c = false := by
  induction s with
  | nil => exact .inl rfl
  | cons c s ih =>
    rw [rstrip]
    cases h : rstrip s with
    | nil =>
      by_cases hc : isPySpace c
      · exact .inl (by simp [hc])
      · exact .inr ⟨[], c, by simp [hc]⟩
    | cons r rs =>
      rcases ih with hnil | ⟨a, x, hax, hx⟩
      · simp [h] at hnil
      · rw [h] at hax
        refine .inr ⟨c :: a, x, ?_, hx⟩
        show c :: (r :: rs) = c :: a ++ [x]
        rw [hax, List.cons_append]

theorem lstrip_eq_nil_iff {s : Chars} : lstrip s = [] ↔ ∀ c ∈ s, isPySpace c = true :=
  List.dropWhile_eq_nil_iff

theorem lstrip_cons_of_not_space {c : Char} {s : Chars} (h : isPySpace c = false) :
    lstrip (c :: s) = c :: s := by
  simp [lstrip, List.dropWhile_cons, h]

theorem pyStrip_eq_nil_iff {s : Chars} : pyStrip s = [] ↔ ∀ c ∈ s, isPySpace c = true := by
  unfold pyStrip
  constructor
  · intro h
    have hall : ∀ c ∈ rstrip s, isPySpace c = true := lstrip_eq_nil_iff.1 h
    have : rstrip (rstrip s) = [] := rstrip_eq_nil_iff.2 hall
    rw [rstrip_idem] at this
    exact rstrip_eq_nil_iff.1 this
  · intro h
    rw [rstrip_eq_nil_iff.2 h]
    rfl

theorem dropWhile_head_decomp (x : Chars) :
    x.dropWhile isPySpace = [] ∨
      ∃ c t, x.dropWhile isPySpace = c :: t ∧ isPySpace c = false := by
  induction x with
  | nil => exact .inl rfl
  | cons c x ih =>
    by_cases hc : isPySpace c
    · simpa [List.dropWhile_cons, hc] using ih
    · exact .inr ⟨c, x, by simp [List.dropWhile_cons, hc], by simpa using hc⟩

theorem pyStrip_head_decomp (s : Chars) :
    pyStrip s = [] ∨ ∃ c t, pyStrip s = c :: t ∧ isPySpace c = false :=
  dropWhile_head_decomp (rstrip s)

theorem pyStrip_last_decomp (s : Chars) :
    pyStrip s = [] ∨ ∃ a c, pyStrip s = a ++ [c] ∧ isPySpace c = false := by
  rcases rstrip_getLast_not_space s with h | ⟨a, c, hac, hc⟩
  · exact .inl (by simp [pyStrip, lstrip, h])
  · unfold pyStrip lstrip
    rw [hac, List.dropWhile_append]
    by_cases ha : (a.dropWhile isPySpace).isEmpty
    · simp only [ha, if_true]
      exact .inr ⟨[], c, by simp [List.dropWhile_cons, hc], hc⟩
    · simp only [ha, if_false]
      exact .inr ⟨a.dropWhile isPySpace, c, rfl, hc⟩

theorem pyStrip_idem (s : Chars) : pyStrip (pyStrip s) = pyStrip s := by
  rcases pyStrip_head_decomp s with h | ⟨c, t, hct, hc⟩
  · rw [h]; rfl
  · rcases pyStrip_last_decomp s with h' | ⟨a, c', hac, hc'⟩
    · rw [hct] at h'; cases h'
    · rw [hac, pyStrip, rstrip_append_singleton hc', ← hac, hct,
        lstrip_cons_of_not_space hc, ← hct, hac]

theorem pyStrip_sublist (s : Chars) : List.Sublist (pyStrip s) s := by
  obtain ⟨w, hw, -⟩ := exists_rstrip_suffix s
  have h1 : List.Sublist (pyStrip s) (rstrip s) := (List.dropWhile_suffix isPySpace).sublist
  have h2 : List.Sublist (rstrip s) s := List.IsPrefix.sublist ⟨w, hw.symm⟩
  exact h1.trans h2

theorem mem_of_mem_pyStrip {c : Char} {s : Chars} (h : c ∈ pyStrip s) : c ∈ s :=
  (pyStrip_sublist s).mem h

/-! ### The extracted heading: shape lemmas -/

/-- A well-formed heading: nonempty and fully stripped. -/
def goodHeading (h : Chars) : Prop := h ≠ [] ∧ pyStrip h = h

theorem goodHeading_decomp {h : Chars} (hg : goodHeading h) :
    (∃ c t, h = c :: t ∧ isPySpace c = false) ∧
      (∃ a c, h = a ++ [c] ∧ isPySpace c = false) := by
  obtain ⟨hne, hst⟩ := hg
  constructor
  · rcases pyStrip_head_decomp h with h0 | ⟨c, t, hct, hc⟩
    · rw [hst] at h0; exact absurd h0 hne
    · rw [hst] at hct; exact ⟨c, t, hct, hc⟩
  · rcases pyStrip_last_decomp h with h0 | ⟨a, c, hac, hc⟩
    · rw [hst] at h0; exact absurd h0 hne
    · rw [hst] at hac; exact ⟨a, c, hac, hc⟩

/-- The heading line `"# " + heading` rebuilt by `_normalize_root_file`. -/
def headingLine (h : Chars) : Chars := '#' :: ' ' :: h

theorem pyStrip_headingLine {h : Chars} (hg : goodHeading h) :
    pyStrip (headingLine h) = headingLine h := by
  obtain ⟨-, a, c, hac, hc⟩ := goodHeading_decomp hg
  have : headingLine h = ('#' :: ' ' :: a) ++ [c] := by simp [headingLine, hac]
  rw [this, pyStrip, rstrip_append_singleton hc, ← this]
  exact lstrip_cons_of_not_space (by decide)

theorem startsWith_iff {s p : Chars} : startsWith s p = true ↔ ∃ t, s = p ++ t := by
  unfold startsWith
  rw [List.isPrefixOf_iff_prefix]
  constructor
  · rintro ⟨t, ht⟩; exact ⟨t, ht.symm⟩
  · rintro ⟨t, ht⟩; exact ⟨t, ht.symm⟩

/-- The heading captured at an H1 line is nonempty and fully stripped: a
stripped line carrying the `"# "` marker cannot be all whitespace after it. -/
theorem heading_good_of_h1 {line : Chars}
    (hsw : startsWith (pyStrip line) (chars "# ") = true) :
    goodHeading (pyStrip ((pyStrip line).drop 2)) := by
  obtain ⟨t, ht⟩ := startsWith_iff.1 hsw
  rw [show chars "# " = ['#', ' '] from rfl] at ht
  simp only [List.cons_append, List.nil_append] at ht
  rcases pyStrip_last_decomp line with h0 | ⟨a, c, hac, hc⟩
  · rw [ht] at h0; cases h0
  · have hdrop : (pyStrip line).drop 2 = t := by rw [ht]; rfl
    have htne : t ≠ [] := by
      intro h
      have h2 : a ++ [c] = ['#', ' '] := by rw [← hac, ht, h]
      have : c = ' ' := by
        have h3 := congrArg List.getLast? h2
        rw [List.getLast?_concat] at h3
        simpa using h3
      rw [this] at hc
      exact absurd hc (by decide)
    have hlen : 2 ≤ a.length := by
      have h2 : ('#' :: ' ' :: t).length = (a ++ [c]).length := by rw [← ht, hac]
      have h3 : 1 ≤ t.length := List.length_pos.2 htne
      simp [List.length_append] at h2
      omega
    have htc : t = a.drop 2 ++ [c] := by
      have h2 : (pyStrip line).drop 2 = (a ++ [c]).drop 2 := by rw [hac]
      rw [hdrop, List.drop_append_of_le_length hlen] at h2
      exact h2
    have hrt : rstrip t = t := by rw [htc]; exact rstrip_append_singleton hc
    rw [hdrop]
    constructor
    · intro h
      rw [pyStrip, hrt] at h
      have hall := lstrip_eq_nil_iff.1 h
      have hcmem : c ∈ t := by rw [htc]; simp
      have := hall c hcmem
      rw [this] at hc; cases hc
    · exact pyStrip_idem _

theorem find_first_h1_go_good {ls : List Chars} {b : Bool} {n i : Nat} {h : Chars}
    (hq : find_first_h1_go b n ls = some (i, h)) : goodHeading h := by
  induction ls generalizing b n with
  | nil => cases hq
  | cons line rest ih =>
    rw [find_first_h1_go] at hq
    by_cases h1 : startsWith (pyStrip line) (chars "```") = true
    · rw [if_pos h1] at hq; exact ih hq
    · rw [if_neg h1] at hq
      by_cases h2 : b = true
      · rw [if_pos h2] at hq; exact ih hq
      · rw [if_neg h2] at hq
        by_cases h3 : startsWith (pyStrip line) (chars "# ") = true
        · rw [if_pos h3] at hq
          injection hq with hq
          injection hq with hq1 hq2
          rw [← hq2]
          exact heading_good_of_h1 h3
        · rw [if_neg h3] at hq; exact ih hq

theorem find_first_h1_good {ls : List Chars} {i : Nat} {h : Chars}
    (hq : find_first_h1 ls = some (i, h)) : goodHeading h :=
  find_first_h1_go_good hq

/-! ### splitlines / joinLines -/

theorem collapseCRLF_eq_self {s : List Char} (h : '\r' ∉ s) : collapseCRLF s = s := by
  induction s with
  | nil => rfl
  | cons c s ih =>
    have h1 : c ≠ '\r' := fun hh => h (by simp [hh])
    have h2 : '\r' ∉ s := fun hh => h (List.mem_cons_of_mem c hh)
    rw [collapseCRLF, ih h2]
    intro s1 hc1 hs1
    exact h1 hc1

theorem splitGo_append {m : List Char} (hm : ∀ c ∈ m, isLineBreak c = false) (cur s : List Char) :
    splitGo cur (m ++ s) = splitGo (m.reverse ++ cur) s := by
  induction m generalizing cur with
  | nil => simp
  | cons c m ih =>
    have hc : isLineBreak c = false := hm c (List.mem_cons_self c m)
    have hm' : ∀ x ∈ m, isLineBreak x = false := fun x hx => hm x (List.mem_cons_of_mem c hx)
    rw [List.cons_append, splitGo, if_neg (by simp [hc]), ih hm' (c :: cur)]
    simp

theorem splitGo_break (cur s : List Char) {c : Char} (hc : isLineBreak c = true) :
    splitGo cur (c :: s) = cur.reverse :: splitEnd s := by
  rw [splitGo, if_pos hc]

theorem splitEnd_line {m : List Char} (hm : ∀ c ∈ m, isLineBreak c = false) (s : List Char)
    {b : Char} (hb : isLineBreak b = true) :
    splitEnd (m ++ b :: s) = m :: splitEnd s := by
  cases m with
  | nil => rw [List.nil_append, splitEnd, if_pos hb]
  | cons c m =>
    have hc : isLineBreak c = false := hm c (List.mem_cons_self c m)
    have hm' : ∀ x ∈ m, isLineBreak x = false := fun x hx => hm x (List.mem_cons_of_mem c hx)
    rw [List.cons_append, splitEnd, if_neg (by simp [hc]), splitGo_append hm',
      splitGo_break _ _ hb]
    simp

theorem joinLines_cons_cons (l l2 : List Char) (ls : List (List Char)) :
    joinLines (l :: l2 :: ls) = l ++ '\n' :: joinLines (l2 :: ls) := rfl

theorem mem_joinLines {c : Char} : ∀ {L : List (List Char)}, c ∈ joinLines L →
    c = '\n' ∨ ∃ l ∈ L, c ∈ l
  | [], h => by cases h
  | [l], h => .inr ⟨l, by simp, h⟩
  | l :: l2 :: ls, h => by
    rw [joinLines_cons_cons] at h
    rcases List.mem_append.1 h with h | h
    · exact .inr ⟨l, by simp, h⟩
    · rcases List.mem_cons.1 h with h | h
      · exact .inl h
      · rcases mem_joinLines h with h | ⟨l', hl', hc⟩
        · exact .inl h
        · exact .inr ⟨l', List.mem_cons_of_mem l hl', hc⟩

theorem no_cr_joinLines {L : List (List Char)}
    (hL : ∀ l ∈ L, ∀ c ∈ l, isLineBreak c = false) : '\r' ∉ joinLines L ++ ['\n'] := by
  intro h
  rcases List.mem_append.1 h with h | h
  · rcases mem_joinLines h with h | ⟨l, hl, hc⟩
    · cases h
    · have := hL l hl '\r' hc
      simp [isLineBreak] at this
  · simp at h

theorem splitEnd_join : ∀ {L : List (List Char)}, L ≠ [] →
    (∀ l ∈ L, ∀ c ∈ l, isLineBreak c = false) →
    splitEnd (joinLines L ++ ['\n']) = L
  | [], h, _ => absurd rfl h
  | [l], _, hL => by
    have hl : ∀ c ∈ l, isLineBreak c = false := hL l (by simp)
    rw [show joinLines [l] = l from rfl, splitEnd_line hl [] (by decide)]
    rfl
  | l :: l2 :: ls, _, hL => by
    have hl : ∀ c ∈ l, isLineBreak c = false := hL l (by simp)
    have hL' : ∀ x ∈ l2 :: ls, ∀ c ∈ x, isLineBreak c = false :=
      fun x hx => hL x (List.mem_cons_of_mem l hx)
    have hassoc : joinLines (l :: l2 :: ls) ++ ['\n'] =
        l ++ '\n' :: (joinLines (l2 :: ls) ++ ['\n']) := by
      rw [joinLines_cons_cons]; simp
    rw [hassoc, splitEnd_line hl _ (by decide), splitEnd_join (by simp) hL']

theorem splitlines_join {L : List (List Char)} (hne : L ≠ [])
    (hL : ∀ l ∈ L, ∀ c ∈ l, isLineBreak c = false) :
    splitlines (joinLines L ++ ['\n']) = L := by
  have hkey : splitGo [] (joinLines L ++ ['\n']) = L := by
    cases L with
    | nil => exact absurd rfl hne
    | cons l ls =>
      have hl : ∀ c ∈ l, isLineBreak c = false := hL l (by simp)
      cases ls with
      | nil =>
        rw [show joinLines [l] = l from rfl, splitGo_append hl, splitGo_break _ _ (by decide)]
        simp [splitEnd]
      | cons l2 ls' =>
        have hL' : ∀ x ∈ l2 :: ls', ∀ c ∈ x, isLineBreak c = false :=
          fun x hx => hL x (List.mem_cons_of_mem l hx)
        have hassoc : joinLines (l :: l2 :: ls') ++ ['\n'] =
            l ++ '\n' :: (joinLines (l2 :: ls') ++ ['\n']) := by
          rw [joinLines_cons_cons]; simp
        rw [hassoc, splitGo_append hl, splitGo_break _ _ (by decide),
          splitEnd_join (by simp) hL']
        simp
  rw [splitlines]
  · rw [collapseCRLF_eq_self (no_cr_joinLines hL)]
    exact hkey
  · intro h
    simp at h

theorem splitGo_splitEnd_lineFree :
    ∀ (s : List Char),
      (∀ cur, (∀ c ∈ cur, isLineBreak c = false) →
        ∀ l ∈ splitGo cur s, ∀ c ∈ l, isLineBreak c = false) ∧
      (∀ l ∈ splitEnd s, ∀ c ∈ l, isLineBreak c = false)
  | [] => by
    constructor
    · intro cur hcur l hl c hc
      rw [splitGo] at hl
      rcases List.mem_singleton.1 hl with rfl
      exact hcur c (List.mem_reverse.1 hc)
    · intro l hl; cases hl
  | x :: s => by
    obtain ⟨ihGo, ihEnd⟩ := splitGo_splitEnd_lineFree s
    constructor
    · intro cur hcur l hl c hc
      rw [splitGo] at hl
      by_cases hx : isLineBreak x = true
      · rw [if_pos hx] at hl
        rcases List.mem_cons.1 hl with rfl | hl
        · exact hcur c (List.mem_reverse.1 hc)
        · exact ihEnd l hl c hc
      · rw [if_neg hx] at hl
        refine ihGo (x :: cur) ?_ l hl c hc
        intro y hy
        rcases List.mem_cons.1 hy with rfl | hy
        · simpa using hx
        · exact hcur y hy
    · intro l hl c hc
      rw [splitEnd] at hl
      by_cases hx : isLineBreak x = true
      · rw [if_pos hx] at hl
        rcases List.mem_cons.1 hl with rfl | hl
        · cases hc
        · exact ihEnd l hl c hc
      · rw [if_neg hx] at hl
        refine ihGo [x] ?_ l hl c hc
        intro y hy
        rcases List.mem_singleton.1 hy with rfl
        simpa using hx

theorem splitlines_lineFree {s : List Char} :
    ∀ l ∈ splitlines s, ∀ c ∈ l, isLineBreak c = false := by
  cases s with
  | nil => intro l hl; cases hl
  | cons x s =>
    intro l hl
    exact (splitGo_splitEnd_lineFree (collapseCRLF (x :: s))).1 [] (by simp) l hl

/-! ### Trailing-whitespace structure of joined lines -/

/-- Dropping trailing blank lines and right-stripping the last remaining line:
this is how `rstrip` acts on a newline-joined list of lines. -/
def trimBody : List Chars → List Chars
  | [] => []
  | l :: rest =>
    match trimBody rest with
    | [] => if isBlank l then [] else [rstrip l]
    | r => l :: r

theorem isBlank_iff {l : Chars} : isBlank l = true ↔ ∀ c ∈ l, isPySpace c = true := by
  unfold isBlank
  rw [List.isEmpty_iff]
  exact pyStrip_eq_nil_iff

theorem rstrip_eq_nil_of_isBlank {l : Chars} (h : isBlank l = true) : rstrip l = [] :=
  rstrip_eq_nil_iff.2 (isBlank_iff.1 h)

theorem rstrip_ne_nil_of_not_isBlank {l : Chars} (h : isBlank l = false) : rstrip l ≠ [] := by
  intro hr
  have : isBlank l = true := isBlank_iff.2 (rstrip_eq_nil_iff.1 hr)
  rw [this] at h; cases h

theorem isBlank_rstrip (l : Chars) : isBlank (rstrip l) = isBlank l := by
  unfold isBlank
  rw [pyStrip, pyStrip, rstrip_idem]

theorem trimBody_eq_nil_iff {L : List Chars} :
    trimBody L = [] ↔ ∀ l ∈ L, isBlank l = true := by
  induction L with
  | nil => simp [trimBody]
  | cons l rest ih =>
    rw [trimBody]
    cases hr : trimBody rest with
    | nil =>
      rw [hr] at ih
      by_cases hb : isBlank l = true
      · simp only [hb, if_true]
        constructor
        · intro _ x hx
          rcases List.mem_cons.1 hx with rfl | hx
          · exact hb
          · exact ih.1 rfl x hx
        · intro _; trivial
      · simp only [Bool.not_eq_true] at hb
        simp only [hb, Bool.false_eq_true, if_false]
        constructor
        · intro h; cases h
        · intro hall
          rw [hall l (List.mem_cons_self l rest)] at hb; cases hb
    | cons r rs =>
      constructor
      · intro h; cases h
      · intro hall
        have : trimBody rest = [] := ih.2 (fun x hx => hall x (List.mem_cons_of_mem l hx))
        rw [this] at hr; cases hr

theorem trimBody_last (L : List Chars) :
    trimBody L = [] ∨
      ∃ M l', trimBody L = M ++ [rstrip l'] ∧ isBlank l' = false := by
  induction L with
  | nil => exact .inl rfl
  | cons l rest ih =>
    rw [trimBody]
    cases hr : trimBody rest with
    | nil =>
      by_cases hb : isBlank l = true
      · exact .inl (by simp [hb])
      · simp only [Bool.not_eq_true] at hb
        exact .inr ⟨[], l, by simp [hb], hb⟩
    | cons r rs =>
      rcases ih with h | ⟨M, l', hM, hl'⟩
      · rw [h] at hr; cases hr
      · refine .inr ⟨l :: M, l', ?_, hl'⟩
        show l :: (r :: rs) = (l :: M) ++ [rstrip l']
        rw [hr] at hM
        rw [hM, List.cons_append]

theorem joinLines_eq_nil {R : List Chars} (h : joinLines R = []) : R = [] ∨ R = [[]] := by
  cases R with
  | nil => exact .inl rfl
  | cons l ls =>
    cases ls with
    | nil =>
      rw [show joinLines [l] = l from rfl] at h
      exact .inr (by rw [h])
    | cons l2 ls' =>
      rw [joinLines_cons_cons] at h
      have : '\n' ∈ ([] : Chars) := by
        rw [← h]; simp
      cases this

theorem joinLines_trimBody_ne_nil {L : List Chars} (h : trimBody L ≠ []) :
    joinLines (trimBody L) ≠ [] := by
  intro hj
  rcases trimBody_last L with h0 | ⟨M, l', hM, hl'⟩
  · exact h h0
  · rcases joinLines_eq_nil hj with h1 | h1
    · exact h h1
    · rw [hM] at h1
      have : rstrip l' = [] := by
        have := congrArg (fun x => x.getLast?) h1
        simp only [List.getLast?_concat] at this
        cases M with
        | nil =>
          simpa using h1
        | cons m ms =>
          simp at h1
      exact rstrip_ne_nil_of_not_isBlank hl' this

theorem rstrip_joinLines_blank {L : List Chars} (h : ∀ l ∈ L, isBlank l = true) :
    rstrip (joinLines L) = [] := by
  apply rstrip_eq_nil_iff.2
  intro c hc
  rcases mem_joinLines hc with rfl | ⟨l, hl, hcl⟩
  · decide
  · exact isBlank_iff.1 (h l hl) c hcl

/-- `rstrip` on a newline-joined list of lines drops trailing blank lines and
right-strips the last kept line. -/
theorem rstrip_joinLines {L : List Chars} (h : trimBody L ≠ []) :
    rstrip (joinLines L) = joinLines (trimBody L) := by
  induction L with
  | nil => exact absurd rfl h
  | cons l rest ih =>
    rw [trimBody] at h ⊢
    cases hr : trimBody rest with
    | nil =>
      rw [hr] at h
      by_cases hb : isBlank l = true
      · rw [if_pos hb] at h; exact absurd rfl h
      · simp only [Bool.not_eq_true] at hb
        simp only [hb, Bool.false_eq_true, if_false]
        have hblank : ∀ x ∈ rest, isBlank x = true := trimBody_eq_nil_iff.1 hr
        cases rest with
        | nil => rfl
        | cons l2 ls =>
          rw [joinLines_cons_cons, rstrip_append]
          have hnil : rstrip ('\n' :: joinLines (l2 :: ls)) = [] := by
            apply rstrip_eq_nil_iff.2
            intro c hc
            rcases List.mem_cons.1 hc with rfl | hc
            · decide
            · rcases mem_joinLines hc with rfl | ⟨x, hx, hcx⟩
              · decide
              · exact isBlank_iff.1 (hblank x hx) c hcx
          rw [if_pos hnil]
          rfl
    | cons r rs =>
      rw [hr] at ih
      have hne : r :: rs ≠ [] := by simp
      have hjoin : joinLines (r :: rs) ≠ [] := by
        have := joinLines_trimBody_ne_nil (L := rest) (by rw [hr]; simp)
        rwa [hr] at this
      have hrest : rest ≠ [] := by
        intro hh
        rw [hh] at hr; cases hr
      cases rest with
      | nil => exact absurd rfl hrest
      | cons l2 ls =>
        rw [joinLines_cons_cons, rstrip_append]
        have hb : rstrip ('\n' :: joinLines (l2 :: ls)) = '\n' :: joinLines (r :: rs) := by
          rw [rstrip]
          rw [ih hne]
          cases hj : joinLines (r :: rs) with
          | nil => exact absurd hj hjoin
          | cons y ys => rfl
        rw [hb, if_neg (by simp), joinLines_cons_cons]

theorem trimBody_idem (L : List Chars) : trimBody (trimBody L) = trimBody L := by
  induction L with
  | nil => rfl
  | cons l rest ih =>
    rw [trimBody]
    cases hr : trimBody rest with
    | nil =>
      by_cases hb : isBlank l = true
      · simp [hb, trimBody]
      · simp only [Bool.not_eq_true] at hb
        simp only [hb, Bool.false_eq_true, if_false]
        rw [trimBody, trimBody, isBlank_rstrip l, hb, rstrip_idem]
        rfl
    | cons r rs =>
      rw [hr] at ih
      show trimBody (l :: r :: rs) = l :: r :: rs
      rw [trimBody, ih]

theorem mem_trimBody {x : Chars} : ∀ {L : List Chars}, x ∈ trimBody L →
    x ∈ L ∨ ∃ l ∈ L, x = rstrip l
  | [], h => by cases h
  | l :: rest, h => by
    rw [trimBody] at h
    cases hr : trimBody rest with
    | nil =>
      rw [hr] at h
      by_cases hb : isBlank l = true
      · rw [if_pos hb] at h; cases h
      · simp only [Bool.not_eq_true] at hb
        rw [hb] at h
        simp only [Bool.false_eq_true, if_false] at h
        rcases List.mem_singleton.1 h with rfl
        exact .inr ⟨l, List.mem_cons_self l rest, rfl⟩
    | cons r rs =>
      rw [hr] at h
      rcases List.mem_cons.1 h with rfl | h
      · exact .inl (List.mem_cons_self x rest)
      · rcases mem_trimBody (hr ▸ h : x ∈ trimBody rest) with h1 | ⟨l', hl', hx⟩
        · exact .inl (List.mem_cons_of_mem l h1)
        · exact .inr ⟨l', List.mem_cons_of_mem l hl', hx⟩

theorem mem_rstrip_sublist {c : Char} {l : Chars} (h : c ∈ rstrip l) : c ∈ l := by
  obtain ⟨w, hw, -⟩ := exists_rstrip_suffix l
  rw [hw]
  exact List.mem_append.2 (.inl h)

theorem trimBody_lineFree {L : List Chars}
    (hL : ∀ l ∈ L, ∀ c ∈ l, isLineBreak c = false) :
    ∀ l ∈ trimBody L, ∀ c ∈ l, isLineBreak c = false := by
  intro l hl c hc
  rcases mem_trimBody hl with h | ⟨l', hl', rfl⟩
  · exact hL l h c hc
  · exact hL l' hl' c (mem_rstrip_sublist hc)

/-! ### Shape and fixed point of `normalizeText` -/

theorem dropWhile_head_decompP {α : Type} (p : α → Bool) (x : List α) :
    x.dropWhile p = [] ∨ ∃ c t, x.dropWhile p = c :: t ∧ p c = false := by
  induction x with
  | nil => exact .inl rfl
  | cons c x ih =>
    by_cases hc : p c = true
    · simpa [List.dropWhile_cons, hc] using ih
    · simp only [Bool.not_eq_true] at hc
      exact .inr ⟨c, x, by simp [List.dropWhile_cons, hc], hc⟩

theorem find_first_h1_go_mem {ls : List Chars} {b : Bool} {n i : Nat} {h : Chars}
    (hq : find_first_h1_go b n ls = some (i, h)) :
    ∃ line ∈ ls, startsWith (pyStrip line) (chars "# ") = true ∧
      h = pyStrip ((pyStrip line).drop 2) := by
  induction ls generalizing b n with
  | nil => cases hq
  | cons line rest ih =>
    rw [find_first_h1_go] at hq
    by_cases h1 : startsWith (pyStrip line) (chars "```") = true
    · rw [if_pos h1] at hq
      obtain ⟨x, hx, hsw, hh⟩ := ih hq
      exact ⟨x, List.mem_cons_of_mem line hx, hsw, hh⟩
    · rw [if_neg h1] at hq
      by_cases h2 : b = true
      · rw [if_pos h2] at hq
        obtain ⟨x, hx, hsw, hh⟩ := ih hq
        exact ⟨x, List.mem_cons_of_mem line hx, hsw, hh⟩
      · rw [if_neg h2] at hq
        by_cases h3 : startsWith (pyStrip line) (chars "# ") = true
        · rw [if_pos h3] at hq
          injection hq with hq
          injection hq with hq1 hq2
          exact ⟨line, List.mem_cons_self line rest, h3, hq2.symm⟩
        · rw [if_neg h3] at hq
          obtain ⟨x, hx, hsw, hh⟩ := ih hq
          exact ⟨x, List.mem_cons_of_mem line hx, hsw, hh⟩

theorem heading_lineFree {text h : Chars}
    (hline : ∃ line ∈ (splitlines text).dropWhile isBlank,
      h = pyStrip ((pyStrip line).drop 2)) :
    ∀ c ∈ h, isLineBreak c = false := by
  obtain ⟨line, hmem, rfl⟩ := hline
  intro c hc
  have h1 : c ∈ (pyStrip line).drop 2 := mem_of_mem_pyStrip hc
  have h2 : c ∈ pyStrip line := List.mem_of_mem_drop h1
  have h3 : c ∈ line := mem_of_mem_pyStrip h2
  have h4 : line ∈ splitlines text := (List.dropWhile_sublist isBlank).mem hmem
  exact splitlines_lineFree line h4 c h3

/-- Everything `normalizeText` guarantees about a successful result:
the heading is good and newline-free, and the output is the heading line,
a blank line and a leading-blank-stripped newline-free body, joined,
right-stripped, plus one newline. -/
theorem normalizeText_shape {text norm h : Chars}
    (hq : normalizeText text = some (norm, h)) :
    goodHeading h ∧ (∀ c ∈ h, isLineBreak c = false) ∧
    ∃ body : List Chars,
      (∀ l ∈ body, ∀ c ∈ l, isLineBreak c = false) ∧
      (body = [] ∨ ∃ b t, body = b :: t ∧ isBlank b = false) ∧
      norm = rstrip (joinLines (headingLine h :: [] :: body)) ++ ['\n'] := by
  unfold normalizeText at hq
  cases hf : find_first_h1 ((splitlines text).dropWhile isBlank) with
  | none => rw [hf] at hq; cases hq
  | some p =>
    obtain ⟨i, h'⟩ := p
    rw [hf] at hq
    simp only [Option.some.injEq, Prod.mk.injEq] at hq
    obtain ⟨hnorm, hh⟩ := hq
    subst hh
    refine ⟨find_first_h1_good hf, ?_, ?_⟩
    · obtain ⟨line, hmem, -, hline⟩ := find_first_h1_go_mem hf
      exact heading_lineFree ⟨line, hmem, hline⟩
    · refine ⟨(((splitlines text).dropWhile isBlank).drop (i + 1)).dropWhile isBlank,
        ?_, ?_, ?_⟩
      · intro l hl c hc
        have h1 : l ∈ ((splitlines text).dropWhile isBlank).drop (i + 1) :=
          (List.dropWhile_sublist isBlank).mem hl
        have h2 : l ∈ (splitlines text).dropWhile isBlank := List.mem_of_mem_drop h1
        have h3 : l ∈ splitlines text := (List.dropWhile_sublist isBlank).mem h2
        exact splitlines_lineFree l h3 c hc
      · exact dropWhile_head_decompP isBlank _
      · exact hnorm.symm

theorem headingLine_lineFree {h : Chars} (hlf : ∀ c ∈ h, isLineBreak c = false) :
    ∀ c ∈ headingLine h, isLineBreak c = false := by
  intro c hc
  rcases List.mem_cons.1 hc with rfl | hc
  · decide
  · rcases List.mem_cons.1 hc with rfl | hc
    · decide
    · exact hlf c hc

theorem headingLine_pyStrip_ne_nil {h : Chars} (hg : goodHeading h) :
    pyStrip (headingLine h) ≠ [] := by
  rw [pyStrip_headingLine hg]
  simp [headingLine]

theorem isBlank_headingLine {h : Chars} (hg : goodHeading h) :
    isBlank (headingLine h) = false := by
  unfold isBlank
  cases hx : pyStrip (headingLine h) with
  | nil => exact absurd hx (headingLine_pyStrip_ne_nil hg)
  | cons a as => rfl

theorem rstrip_headingLine {h : Chars} (hg : goodHeading h) :
    rstrip (headingLine h) = headingLine h := by
  obtain ⟨-, a, c, hac, hc⟩ := goodHeading_decomp hg
  have : headingLine h = ('#' :: ' ' :: a) ++ [c] := by simp [headingLine, hac]
  rw [this, rstrip_append_singleton hc]

theorem startsWith_headingLine_fence (h : Chars) :
    startsWith (headingLine h) (chars "```") = false := rfl

theorem startsWith_headingLine_h1 (h : Chars) :
    startsWith (headingLine h) (chars "# ") = true := by
  simp [startsWith, chars, headingLine, List.isPrefixOf]

theorem find_first_h1_cons_headingLine {h : Chars} (hg : goodHeading h) (rest : List Chars) :
    find_first_h1 (headingLine h :: rest) = some (0, h) := by
  rw [find_first_h1, find_first_h1_go]
  rw [pyStrip_headingLine hg]
  rw [if_neg (by rw [startsWith_headingLine_fence]; exact Bool.false_ne_true)]
  rw [if_neg Bool.false_ne_true]
  rw [if_pos (startsWith_headingLine_h1 h)]
  show some (0, pyStrip h) = some (0, h)
  rw [hg.2]

/-- The trim of the rebuilt line list: either the body vanishes entirely or it
survives as `trimBody body`, which then starts with a non-blank line. -/
theorem trimBody_rebuilt {h : Chars} {body : List Chars} (hg : goodHeading h)
    (hbodyHead : body = [] ∨ ∃ b t, body = b :: t ∧ isBlank b = false) :
    (trimBody body = [] ∧ trimBody (headingLine h :: [] :: body) = [headingLine h]) ∨
    (trimBody body ≠ [] ∧
      trimBody (headingLine h :: [] :: body) = headingLine h :: [] :: trimBody body ∧
      (∃ b t, trimBody body = b :: t ∧ isBlank b = false)) := by
  cases htb : trimBody body with
  | nil =>
    left
    refine ⟨rfl, ?_⟩
    have h2 : trimBody ([] :: body) = [] := by
      rw [trimBody, htb]
      simp [isBlank, pyStrip, lstrip, rstrip]
    rw [trimBody, h2, if_neg (by rw [isBlank_headingLine hg]; exact Bool.false_ne_true),
      rstrip_headingLine hg]
  | cons r rs =>
    right
    have hbody : ∃ b t, body = b :: t ∧ isBlank b = false := by
      rcases hbodyHead with rfl | hb
      · cases htb
      · exact hb
    obtain ⟨b, t, rfl, hbblank⟩ := hbody
    have hrblank : isBlank r = false := by
      rw [trimBody] at htb
      cases htt : trimBody t with
      | nil =>
        rw [htt] at htb
        rw [hbblank] at htb
        simp only [Bool.false_eq_true, if_false] at htb
        have : r = rstrip b := by
          have := htb
          injection this with h1 h2
          exact h1.symm
        rw [this, isBlank_rstrip, hbblank]
      | cons u us =>
        rw [htt] at htb
        have : r = b := by injection htb with h1 h2; exact h1.symm
        rw [this, hbblank]
    have h2 : trimBody ([] :: b :: t) = [] :: r :: rs := by
      rw [trimBody, htb]
    refine ⟨by simp, ?_, r, rs, rfl, hrblank⟩
    rw [trimBody, h2]

/-- Normalization is idempotent on texts: renormalizing an output of
`normalizeText` changes nothing and extracts the same heading. -/
theorem normalizeText_fixpoint {text norm h : Chars}
    (hq : normalizeText text = some (norm, h)) :
    normalizeText norm = some (norm, h) := by
  obtain ⟨hg, hlf, body, hbodyLF, hbodyHead, hnorm⟩ := normalizeText_shape hq
  have hLlf : ∀ l ∈ headingLine h :: [] :: body, ∀ c ∈ l, isLineBreak c = false := by
    intro l hl
    rcases List.mem_cons.1 hl with rfl | hl
    · exact headingLine_lineFree hlf
    · rcases List.mem_cons.1 hl with rfl | hl
      · intro c hc; cases hc
      · exact hbodyLF l hl
  rcases trimBody_rebuilt hg hbodyHead with ⟨htb0, hM⟩ | ⟨htbne, hM, b, t, hbt, hbblank⟩
  · -- the body trims away entirely: norm is the heading line plus newline
    have hMne : trimBody (headingLine h :: [] :: body) ≠ [] := by rw [hM]; simp
    have hnorm2 : norm = headingLine h ++ ['\n'] := by
      rw [hnorm, rstrip_joinLines hMne, hM]
      rfl
    have hsplit : splitlines norm = [headingLine h] := by
      rw [hnorm2]
      exact splitlines_join (L := [headingLine h]) (by simp)
        (fun l hl => by
          rcases List.mem_singleton.1 hl with rfl
          exact headingLine_lineFree hlf)
    unfold normalizeText
    rw [hsplit]
    rw [show List.dropWhile isBlank [headingLine h] = [headingLine h] from by
      simp [List.dropWhile_cons, isBlank_headingLine hg]]
    rw [find_first_h1_cons_headingLine hg []]
    show some (rstrip (joinLines [headingLine h, []] ) ++ ['\n'], h) = some (norm, h)
    have hjoin : joinLines [headingLine h, []] = headingLine h ++ ['\n'] := rfl
    have hrs : rstrip ['\n'] = [] := by decide
    rw [hjoin, rstrip_append, if_pos hrs, rstrip_headingLine hg, ← hnorm2]
  · -- the body survives as trimBody body
    have hMne : trimBody (headingLine h :: [] :: body) ≠ [] := by rw [hM]; simp
    have hnorm2 : norm = joinLines (headingLine h :: [] :: trimBody body) ++ ['\n'] := by
      rw [hnorm, rstrip_joinLines hMne, hM]
    have hMlf : ∀ l ∈ headingLine h :: [] :: trimBody body, ∀ c ∈ l, isLineBreak c = false := by
      rw [← hM]
      intro l hl
      exact trimBody_lineFree hLlf l hl
    have hsplit : splitlines norm = headingLine h :: [] :: trimBody body := by
      rw [hnorm2]
      exact splitlines_join (by simp) hMlf
    unfold normalizeText
    rw [hsplit]
    rw [show List.dropWhile isBlank (headingLine h :: [] :: trimBody body) =
        headingLine h :: [] :: trimBody body from by
      simp [List.dropWhile_cons, isBlank_headingLine hg]]
    rw [find_first_h1_cons_headingLine hg ([] :: trimBody body)]
    show some (rstrip (joinLines (headingLine h :: [] ::
      (List.dropWhile isBlank (trimBody body)))) ++ ['\n'], h) = some (norm, h)
    have hdw : List.dropWhile isBlank (trimBody body) = trimBody body := by
      rw [hbt]
      simp [List.dropWhile_cons, hbblank]
    rw [hdw]
    have hB : trimBody (headingLine h :: [] :: trimBody body) =
        headingLine h :: [] :: trimBody body := by
      rcases trimBody_rebuilt hg
          (Or.inr ⟨b, t, hbt, hbblank⟩ :
            trimBody body = [] ∨ ∃ x u, trimBody body = x :: u ∧ isBlank x = false)
          with ⟨hz, -⟩ | ⟨-, hM2, -⟩
      · rw [trimBody_idem] at hz
        exact absurd hz htbne
      · rw [hM2, trimBody_idem]
    have : rstrip (joinLines (headingLine h :: [] :: trimBody body)) =
        joinLines (headingLine h :: [] :: trimBody body) := by
      rw [rstrip_joinLines (by rw [hB]; simp), hB]
    rw [this, ← hnorm2]

/-! ### The stable ascending sort -/

theorem insertAsc_eq_takeDrop (x : Nat × Chars) (l : List (Nat × Chars)) :
    insertAsc x l = l.takeWhile (fun y => y.1 < x.1) ++ x :: l.dropWhile (fun y => y.1 < x.1) := by
  induction l with
  | nil => rfl
  | cons y ys ih =>
    rw [insertAsc]
    by_cases hy : y.1 < x.1
    · rw [if_pos hy, ih, List.takeWhile_cons, List.dropWhile_cons]
      simp [hy]
    · rw [if_neg hy, List.takeWhile_cons, List.dropWhile_cons]
      simp [hy]

theorem insertAsc_perm (x : Nat × Chars) (l : List (Nat × Chars)) :
    (insertAsc x l).Perm (x :: l) := by
  rw [insertAsc_eq_takeDrop]
  have h1 : (l.takeWhile (fun y => y.1 < x.1) ++ x :: l.dropWhile (fun y => y.1 < x.1)).Perm
      (x :: (l.takeWhile (fun y => y.1 < x.1) ++ l.dropWhile (fun y => y.1 < x.1))) :=
    List.perm_middle
  rwa [List.takeWhile_append_dropWhile] at h1

theorem sortByKey_perm (l : List (Nat × Chars)) : (sortByKey l).Perm l := by
  induction l with
  | nil => exact .refl []
  | cons x xs ih =>
    exact ((insertAsc_perm x (sortByKey xs)).trans (ih.cons x))

theorem insertAsc_sorted {x : Nat × Chars} {l : List (Nat × Chars)}
    (hl : l.Pairwise (fun a b => a.1 ≤ b.1)) :
    (insertAsc x l).Pairwise (fun a b => a.1 ≤ b.1) := by
  induction l with
  | nil => exact List.pairwise_singleton _ x
  | cons y ys ih =>
    rw [insertAsc]
    obtain ⟨hy, hys⟩ := List.pairwise_cons.1 hl
    by_cases hxy : y.1 < x.1
    · rw [if_pos hxy]
      refine List.pairwise_cons.2 ⟨?_, ih hys⟩
      intro z hz
      have := (insertAsc_perm x ys).mem_iff.1 hz
      rcases List.mem_cons.1 this with rfl | hz'
      · exact Nat.le_of_lt hxy
      · exact hy z hz'
    · rw [if_neg hxy]
      refine List.pairwise_cons.2 ⟨?_, hl⟩
      intro z hz
      rcases List.mem_cons.1 hz with rfl | hz'
      · exact Nat.le_of_not_lt hxy
      · exact Nat.le_trans (Nat.le_of_not_lt hxy) (hy z hz')

theorem sortByKey_sorted (l : List (Nat × Chars)) :
    (sortByKey l).Pairwise (fun a b => a.1 ≤ b.1) := by
  induction l with
  | nil => exact List.Pairwise.nil
  | cons x xs ih => exact insertAsc_sorted ih

theorem filter_insertAsc (x : Nat × Chars) (l : List (Nat × Chars)) (k : Nat) :
    (insertAsc x l).filter (fun y => y.1 == k) =
      if x.1 = k then x :: l.filter (fun y => y.1 == k)
      else l.filter (fun y => y.1 == k) := by
  rw [insertAsc_eq_takeDrop, List.filter_append]
  have htake : (l.takeWhile (fun y => y.1 < x.1)).filter (fun y => y.1 == k) = [] ∨ x.1 ≠ k := by
    by_cases hx : x.1 = k
    · left
      apply List.filter_eq_nil_iff.2
      intro y hy
      have h1 := List.mem_takeWhile_imp hy
      simp only [decide_eq_true_eq] at h1
      simp only [beq_iff_eq]
      omega
    · exact .inr hx
  have hsplit : l.filter (fun y => y.1 == k) =
      (l.takeWhile (fun y => y.1 < x.1)).filter (fun y => y.1 == k) ++
        (l.dropWhile (fun y => y.1 < x.1)).filter (fun y => y.1 == k) := by
    rw [← List.filter_append, List.takeWhile_append_dropWhile]
  by_cases hx : x.1 = k
  · rw [if_pos hx]
    rcases htake with htake | hne
    · rw [List.filter_cons_of_pos (by simp [hx]), htake, List.nil_append, hsplit, htake,
        List.nil_append]
    · exact absurd hx hne
  · rw [if_neg hx, List.filter_cons_of_neg (by simp [hx]), hsplit]

/-- Stability: the sort preserves the relative order of entries with equal
keys (each key class is exactly its original subsequence). -/
theorem sortByKey_stable (l : List (Nat × Chars)) (k : Nat) :
    (sortByKey l).filter (fun y => y.1 == k) = l.filter (fun y => y.1 == k) := by
  induction l with
  | nil => rfl
  | cons x xs ih =>
    show (insertAsc x (sortByKey xs)).filter (fun y => y.1 == k) = _
    rw [filter_insertAsc]
    by_cases hx : x.1 = k
    · rw [if_pos hx, List.filter_cons_of_pos (by simp [hx]), ih]
    · rw [if_neg hx, List.filter_cons_of_neg (by simp [hx]), ih]

/-- Two strictly-key-sorted arrangements of the same entries coincide. -/
theorem sortedKeys_unique : ∀ {l1 l2 : List (Nat × Chars)}, l1.Perm l2 →
    l1.Pairwise (fun a b => a.1 < b.1) → l2.Pairwise (fun a b => a.1 < b.1) →
    l1 = l2
  | [], l2, hp, _, _ => (hp.nil_eq).symm ▸ rfl
  | x :: t1, l2, hp, h1, h2 => by
    have hx : x ∈ l2 := hp.mem_iff.1 (List.mem_cons_self x t1)
    obtain ⟨u, v, rfl⟩ := List.append_of_mem hx
    cases u with
    | nil =>
      simp only [List.nil_append] at hp h2 ⊢
      obtain ⟨-, h2t⟩ := List.pairwise_cons.1 h2
      obtain ⟨-, h1t⟩ := List.pairwise_cons.1 h1
      rw [sortedKeys_unique (hp.cons_inv) h1t h2t]
    | cons u0 u' =>
      exfalso
      have hu0x : u0.1 < x.1 := by
        have := List.pairwise_append.1 h2
        exact this.2.2 u0 (List.mem_cons_self u0 u') x (List.mem_cons_self x v)
      have hu0mem : u0 ∈ x :: t1 := hp.symm.mem_iff.1 (by simp)
      rcases List.mem_cons.1 hu0mem with rfl | hmem
      · exact Nat.lt_irrefl _ hu0x
      · have : x.1 < u0.1 := (List.pairwise_cons.1 h1).1 u0 hmem
        omega

theorem pairwise_lt_of_le_nodup {l : List (Nat × Chars)}
    (hle : l.Pairwise (fun a b => a.1 ≤ b.1)) (hnd : (l.map Prod.fst).Nodup) :
    l.Pairwise (fun a b => a.1 < b.1) := by
  have hne : l.Pairwise (fun a b => a.1 ≠ b.1) := List.pairwise_map.1 hnd
  exact (hle.and hne).imp (fun h => Nat.lt_of_le_of_ne h.1 h.2)

/-- With pairwise-distinct keys the stable sort is determined by the entry
multiset: it equals any strictly-sorted arrangement. -/
theorem sortByKey_eq_of_perm_sorted {l m : List (Nat × Chars)} (hp : l.Perm m)
    (hm : m.Pairwise (fun a b => a.1 < b.1)) : sortByKey l = m := by
  have h1 : (sortByKey l).Perm m := (sortByKey_perm l).trans hp
  have hnd : ((sortByKey l).map Prod.fst).Nodup := by
    have : (m.map Prod.fst).Nodup := by
      have : m.Pairwise (fun a b => a.1 ≠ b.1) := hm.imp (fun h => Nat.ne_of_lt h)
      exact List.pairwise_map.2 this
    exact (h1.map Prod.fst).symm.nodup this
  exact sortedKeys_unique h1 (pairwise_lt_of_le_nodup (sortByKey_sorted l) hnd) hm

/-! ### Sanitized filenames -/

theorem mem_collapseWs {c : Char} : ∀ {s : Chars}, c ∈ collapseWs s → c = ' ' ∨ c ∈ s := by
  intro s
  induction s using collapseWsInduct with
  | case1 => intro h; rw [collapseWs_nil] at h; cases h
  | case2 x t hws ih =>
    intro h
    rw [collapseWs_cons, if_pos hws] at h
    rcases List.mem_cons.1 h with rfl | h
    · exact .inl rfl
    · rcases ih h with h | h
      · exact .inl h
      · exact .inr (List.mem_cons_of_mem x ((t.dropWhile_sublist isPySpace).mem h))
  | case3 x t hws ih =>
    intro h
    rw [collapseWs_cons, if_neg hws] at h
    rcases List.mem_cons.1 h with rfl | h
    · exact .inr (List.mem_cons_self c t)
    · rcases ih h with h | h
      · exact .inl h
      · exact .inr (List.mem_cons_of_mem x h)

theorem collapseWs_space {c : Char} : ∀ {s : Chars}, c ∈ collapseWs s →
    isPySpace c = true → c = ' ' := by
  intro s
  induction s using collapseWsInduct with
  | case1 => intro h; rw [collapseWs_nil] at h; cases h
  | case2 x t hws ih =>
    intro h hc
    rw [collapseWs_cons, if_pos hws] at h
    rcases List.mem_cons.1 h with rfl | h
    · rfl
    · exact ih h hc
  | case3 x t hws ih =>
    intro h hc
    rw [collapseWs_cons, if_neg hws] at h
    rcases List.mem_cons.1 h with rfl | h
    · exact absurd hc hws
    · exact ih h hc

theorem collapseWs_chain : ∀ s : Chars,
    (collapseWs s).Chain' (fun a b => isPySpace a = true → isPySpace b = false) := by
  intro s
  induction s using collapseWsInduct with
  | case1 => rw [collapseWs_nil]; exact List.chain'_nil
  | case2 x t hws ih =>
    rw [collapseWs_cons, if_pos hws]
    refine List.chain'_cons'.2 ⟨?_, ih⟩
    intro b hb _
    rcases dropWhile_head_decompP isPySpace t with hd | ⟨y, u, hd, hy⟩
    · rw [hd, collapseWs_nil] at hb; cases hb
    · rw [hd, collapseWs_cons, if_neg (by rw [hy]; exact Bool.false_ne_true)] at hb
      have : b = y := by
        simp only [List.head?_cons, Option.mem_def, Option.some.injEq] at hb
        exact hb.symm
      rw [this, hy]
  | case3 x t hws ih =>
    rw [collapseWs_cons, if_neg hws]
    refine List.chain'_cons'.2 ⟨?_, ih⟩
    intro b hb hx
    exact absurd hx hws

theorem collapseWs_last : ∀ (s : Chars), ∀ a (c : Char), s = a ++ [c] →
    isPySpace c = false → ∃ b, collapseWs s = b ++ [c] := by
  intro s
  induction s using collapseWsInduct with
  | case1 =>
    intro a c hac _
    exact absurd hac.symm (by simp)
  | case2 x t hws ih =>
    intro a c hac hc
    cases a with
    | nil =>
      simp only [List.nil_append, List.cons.injEq] at hac
      rw [hac.1] at hws
      rw [hws] at hc; cases hc
    | cons a0 a' =>
      simp only [List.cons_append, List.cons.injEq] at hac
      obtain ⟨rfl, hta⟩ := hac
      rw [collapseWs_cons, if_pos hws]
      rw [hta, List.dropWhile_append]
      by_cases he : (a'.dropWhile isPySpace).isEmpty
      · rw [if_pos he]
        have h1 : List.dropWhile isPySpace [c] = [c] := by
          simp [List.dropWhile_cons, hc]
        rw [h1]
        obtain ⟨b, hb⟩ := ih [] c (by rw [hta, List.dropWhile_append, if_pos he, h1]; rfl) hc
        rw [hta, List.dropWhile_append, if_pos he, h1] at hb
        exact ⟨' ' :: b, by rw [hb, List.cons_append]⟩
      · rw [if_neg he]
        obtain ⟨b, hb⟩ := ih (a'.dropWhile isPySpace) c
          (by rw [hta, List.dropWhile_append, if_neg he]) hc
        rw [hta, List.dropWhile_append, if_neg he] at hb
        exact ⟨' ' :: b, by rw [hb, List.cons_append]⟩
  | case3 x t hws ih =>
    intro a c hac hc
    cases a with
    | nil =>
      simp only [List.nil_append, List.cons.injEq] at hac
      obtain ⟨rfl, rfl⟩ := hac
      exact ⟨[], by rw [collapseWs_cons, if_neg hws, collapseWs_nil]; rfl⟩
    | cons a0 a' =>
      simp only [List.cons_append, List.cons.injEq] at hac
      obtain ⟨rfl, hta⟩ := hac
      obtain ⟨b, hb⟩ := ih a' c hta hc
      rw [collapseWs_cons, if_neg hws]
      exact ⟨x :: b, by rw [hb, List.cons_append]⟩

theorem pyStrip_eq_self_of_decomp {y : Chars}
    (hhead : ∃ c t, y = c :: t ∧ isPySpace c = false)
    (hlast : ∃ b c', y = b ++ [c'] ∧ isPySpace c' = false) :
    pyStrip y = y := by
  obtain ⟨c, t, rfl, hc⟩ := hhead
  obtain ⟨b, c', hbc, hc'⟩ := hlast
  rw [pyStrip, hbc, rstrip_append_singleton hc', ← hbc]
  exact lstrip_cons_of_not_space hc

theorem sanitize_no_invalid (title : Chars) :
    ∀ c ∈ sanitize_filename title, invalidFilenameChars.contains c = false := by
  intro c hc
  rcases mem_collapseWs hc with rfl | hc
  · decide
  · have h1 : c ∈ removeInvalid title := mem_of_mem_pyStrip hc
    have h2 := List.mem_filter.1 h1
    simpa using h2.2

theorem sanitize_space_eq (title : Chars) :
    ∀ c ∈ sanitize_filename title, isPySpace c = true → c = ' ' :=
  fun _ hc => collapseWs_space hc

theorem sanitize_chain (title : Chars) :
    (sanitize_filename title).Chain' (fun a b => isPySpace a = true → isPySpace b = false) :=
  collapseWs_chain _

theorem sanitize_lineFree (title : Chars) :
    ∀ c ∈ sanitize_filename title, isLineBreak c = false := by
  intro c hc
  by_contra hbr
  simp only [Bool.not_eq_false] at hbr
  have hws : isPySpace c = true := isPySpace_of_isLineBreak hbr
  have : c = ' ' := collapseWs_space hc hws
  rw [this] at hbr
  exact absurd hbr (by decide)

theorem sanitize_trimmed (title : Chars) :
    pyStrip (sanitize_filename title) = sanitize_filename title := by
  unfold sanitize_filename
  rcases pyStrip_head_decomp (removeInvalid title) with h0 | ⟨c, t, hct, hc⟩
  · rw [h0, collapseWs_nil]; rfl
  · rcases pyStrip_last_decomp (removeInvalid title) with h0 | ⟨b, c', hbc, hc'⟩
    · rw [hct] at h0; cases h0
    · refine pyStrip_eq_self_of_decomp ⟨c, collapseWs t, ?_, hc⟩ ?_
      · rw [hct, collapseWs_cons, if_neg (by rw [hc]; exact Bool.false_ne_true)]
      · obtain ⟨bb, hbb⟩ := collapseWs_last _ b c' hbc hc'
        exact ⟨bb, c', hbb, hc'⟩

/-! ### Number formatting and parsing -/

theorem digitVal_digitChar {d : Nat} (h : d < 10) : digitVal (digitChar d) = d := by
  interval_cases d <;> decide

theorem isDigitChar_digitChar {d : Nat} (h : d < 10) : isDigitChar (digitChar d) = true := by
  interval_cases d <;> decide

theorem digitsToNat_append_one (ds : Chars) (c : Char) :
    digitsToNat (ds ++ [c]) = 10 * digitsToNat ds + digitVal c := by
  unfold digitsToNat
  rw [List.foldl_append]
  rfl

theorem digitsToNat_beDigits : ∀ n : Nat,
    digitsToNat ((Nat.digits 10 n).reverse.map digitChar) = n := by
  intro n
  induction n using Nat.strong_induction_on with
  | _ n ih =>
    rcases Nat.eq_zero_or_pos n with rfl | hpos
    · simp [Nat.digits_zero, digitsToNat]
    · rw [Nat.digits_def' (by norm_num) hpos, List.reverse_cons, List.map_append,
        show List.map digitChar [n % 10] = [digitChar (n % 10)] from rfl,
        digitsToNat_append_one,
        ih (n / 10) (Nat.div_lt_self hpos (by norm_num)),
        digitVal_digitChar (Nat.mod_lt n (by norm_num))]
      omega

theorem pyStrNatAux_zero (fuel : Nat) : pyStrNatAux fuel 0 = [] := by
  cases fuel with
  | zero => rfl
  | succ f => rfl

theorem pyStrNatAux_eq_digits : ∀ (fuel n : Nat), n ≠ 0 → n ≤ fuel →
    pyStrNatAux fuel n = (Nat.digits 10 n).reverse.map digitChar
  | 0, n, hn, hle => by omega
  | fuel + 1, n, hn, hle => by
    have hpos : 0 < n := Nat.pos_of_ne_zero hn
    show (if n = 0 then [] else pyStrNatAux fuel (n / 10) ++ [digitChar (n % 10)]) =
      (Nat.digits 10 n).reverse.map digitChar
    rw [if_neg hn]
    rw [Nat.digits_def' (by norm_num : (1:Nat) < 10) hpos, List.reverse_cons, List.map_append]
    by_cases h10 : n / 10 = 0
    · rw [h10, pyStrNatAux_zero]
      simp [Nat.digits_zero]
    · have hlt : n / 10 < n := Nat.div_lt_self hpos (by norm_num)
      rw [pyStrNatAux_eq_digits fuel (n / 10) h10 (by omega)]
      rfl

theorem pyStrNat_eq (n : Nat) :
    pyStrNat n = if n = 0 then ['0'] else (Nat.digits 10 n).reverse.map digitChar := by
  unfold pyStrNat
  by_cases h : n = 0
  · rw [if_pos h, if_pos h]
  · rw [if_neg h, if_neg h]
    exact pyStrNatAux_eq_digits n n h (le_refl n)

theorem digitsToNat_pyStrNat (n : Nat) : digitsToNat (pyStrNat n) = n := by
  rw [pyStrNat_eq]
  by_cases h : n = 0
  · subst h; rfl
  · rw [if_neg h]
    exact digitsToNat_beDigits n

theorem digitsToNat_cons_zero (ds : Chars) : digitsToNat ('0' :: ds) = digitsToNat ds := rfl

theorem digitsToNat_fmt02 (n : Nat) : digitsToNat (fmt02 n) = n := by
  unfold fmt02
  by_cases h : n < 10
  · rw [if_pos h, digitsToNat_cons_zero, digitsToNat_pyStrNat]
  · rw [if_neg h, digitsToNat_pyStrNat]

theorem pyStrNat_digits (n : Nat) : ∀ c ∈ pyStrNat n, isDigitChar c = true := by
  rw [pyStrNat_eq]
  by_cases h : n = 0
  · subst h
    intro c hc
    rcases List.mem_singleton.1 hc with rfl
    decide
  · rw [if_neg h]
    intro c hc
    rw [List.mem_map] at hc
    obtain ⟨d, hd, rfl⟩ := hc
    rw [List.mem_reverse] at hd
    exact isDigitChar_digitChar (Nat.digits_lt_base (by norm_num) hd)

theorem fmt02_digits (n : Nat) : ∀ c ∈ fmt02 n, isDigitChar c = true := by
  unfold fmt02
  by_cases h : n < 10
  · rw [if_pos h]
    intro c hc
    rcases List.mem_cons.1 hc with rfl | hc
    · decide
    · exact pyStrNat_digits n c hc
  · rw [if_neg h]
    exact pyStrNat_digits n

theorem pyStrNat_ne_nil (n : Nat) : pyStrNat n ≠ [] := by
  rw [pyStrNat_eq]
  by_cases h : n = 0
  · subst h; simp
  · rw [if_neg h]
    simp [Nat.digits_ne_nil_iff_ne_zero, h]

theorem fmt02_ne_nil (n : Nat) : fmt02 n ≠ [] := by
  unfold fmt02
  by_cases h : n < 10
  · rw [if_pos h]; simp
  · rw [if_neg h]; exact pyStrNat_ne_nil n

theorem fmt02_length (n : Nat) : 2 ≤ (fmt02 n).length := by
  unfold fmt02
  by_cases h : n < 10
  · rw [if_pos h]
    have := pyStrNat_ne_nil n
    have : 1 ≤ (pyStrNat n).length := List.length_pos.2 this
    simp only [List.length_cons]
    omega
  · rw [if_neg h, pyStrNat_eq, if_neg (by omega)]
    have hlen : (Nat.digits 10 n).length = Nat.log 10 n + 1 :=
      Nat.digits_len 10 n (by norm_num) (by omega)
    have hlog : 0 < Nat.log 10 n := Nat.log_pos (by norm_num) (by omega)
    simp only [List.length_map, List.length_reverse, hlen]
    omega

theorem fmt02_wide (n : Nat) (h : 100 ≤ n) : fmt02 n = pyStrNat n := by
  unfold fmt02
  rw [if_neg (by omega)]

theorem takeWhile_append_all {p : Char → Bool} {a : Chars} (b : Chars)
    (ha : ∀ c ∈ a, p c = true) : (a ++ b).takeWhile p = a ++ b.takeWhile p := by
  induction a with
  | nil => rfl
  | cons c a ih =>
    rw [List.cons_append, List.takeWhile_cons, if_pos (ha c (List.mem_cons_self c a)),
      ih (fun x hx => ha x (List.mem_cons_of_mem c hx)), List.cons_append]

theorem dropWhile_append_all {p : Char → Bool} {a : Chars} (b : Chars)
    (ha : ∀ c ∈ a, p c = true) : (a ++ b).dropWhile p = b.dropWhile p := by
  induction a with
  | nil => rfl
  | cons c a ih =>
    rw [List.cons_append, List.dropWhile_cons, if_pos (ha c (List.mem_cons_self c a)),
      ih (fun x hx => ha x (List.mem_cons_of_mem c hx))]

/-- A nonempty all-whitespace-prefix split certifying `\s*(.+)\.md$` matches
`' ' :: S ++ ".md"` whenever `S` is newline-free. -/
theorem titleOk_space_cons {S : Chars} (hS : ∀ c ∈ S, c ≠ '\n') :
    titleOk (' ' :: (S ++ ['.', 'm', 'd'])) = true := by
  cases hSnil : S with
  | nil => decide
  | cons s0 S' =>
    rw [← hSnil]
    have hSlen : 1 ≤ S.length := by rw [hSnil]; simp
    apply List.any_eq_true.2
    refine ⟨1, List.mem_range.2 (by simp), ?_⟩
    unfold titleOkAt
    have hdrop1 : (' ' :: (S ++ ['.', 'm', 'd'])).drop 1 = S ++ ['.', 'm', 'd'] := rfl
    have htake1 : (' ' :: (S ++ ['.', 'm', 'd'])).take 1 = [' '] := rfl
    rw [hdrop1, htake1]
    have hlen : (S ++ ['.', 'm', 'd']).length = S.length + 3 := by simp
    have hsub : (S ++ ['.', 'm', 'd']).length - 3 = S.length := by omega
    have hdrop : (S ++ ['.', 'm', 'd']).drop ((S ++ ['.', 'm', 'd']).length - 3) =
        ['.', 'm', 'd'] := by
      rw [hsub]; exact List.drop_left _ _
    have htake : (S ++ ['.', 'm', 'd']).take ((S ++ ['.', 'm', 'd']).length - 3) = S := by
      rw [hsub]; exact List.take_left _ _
    rw [hdrop, htake]
    simp only [Bool.and_eq_true, List.all_eq_true, decide_eq_true_eq]
    refine ⟨⟨⟨?_, by simp; omega⟩, by decide⟩, ?_⟩
    · intro c hc
      rcases List.mem_singleton.1 hc with rfl
      decide
    · intro c hc
      simp [hS c hc]

/-- The canonical filename round-trips through `CHAPTER_PATTERN`: it is
discovered again and parses back to the very same number. -/
theorem chapterMatch_expectedName (num : Nat) (heading : Chars) :
    chapterMatch (expectedName num heading) = some num := by
  have hname : expectedName num heading =
      fmt02 num ++ (' ' :: '-' :: ' ' :: (sanitize_filename heading ++ ['.', 'm', 'd'])) := by
    unfold expectedName
    rw [show chars " - " = [' ', '-', ' '] from rfl, show chars ".md" = ['.', 'm', 'd'] from rfl]
    simp
  unfold chapterMatch
  rw [hname]
  rw [takeWhile_append_all _ (fmt02_digits num)]
  rw [show (' ' :: '-' :: ' ' :: (sanitize_filename heading ++ ['.', 'm', 'd'])).takeWhile
      isDigitChar = [] from by rw [List.takeWhile_cons, if_neg (by decide)]]
  rw [List.append_nil]
  rw [dropWhile_append_all _ (fmt02_digits num)]
  rw [show (' ' :: '-' :: ' ' :: (sanitize_filename heading ++ ['.', 'm', 'd'])).dropWhile
      isDigitChar = ' ' :: '-' :: ' ' :: (sanitize_filename heading ++ ['.', 'm', 'd']) from by
    rw [List.dropWhile_cons, if_neg (by decide)]]
  rw [show (' ' :: '-' :: ' ' :: (sanitize_filename heading ++ ['.', 'm', 'd'])).dropWhile
      isPySpace = '-' :: (' ' :: (sanitize_filename heading ++ ['.', 'm', 'd'])) from by
    rw [List.dropWhile_cons, if_pos (by decide), List.dropWhile_cons, if_neg (by decide)]]
  have hempty : (fmt02 num).isEmpty = false := by
    cases hf : fmt02 num with
    | nil => exact absurd hf (fmt02_ne_nil num)
    | cons a as => rfl
  rw [if_neg (by rw [hempty]; exact Bool.false_ne_true)]
  have hnl : ∀ c ∈ sanitize_filename heading, c ≠ '\n' := by
    intro c hc hh
    have hbr := sanitize_lineFree heading c hc
    rw [hh] at hbr
    exact absurd hbr (by decide)
  show (if titleOk (' ' :: (sanitize_filename heading ++ ['.', 'm', 'd'])) = true then
      some (digitsToNat (fmt02 num)) else none) = some num
  rw [if_pos (titleOk_space_cons hnl), digitsToNat_fmt02]

/-! ### Directory lemmas -/

def dirNames (d : Dir) : List Chars := d.map (fun f => f.1)

/-- A sane directory: no two files share a name. -/
def dirWF (d : Dir) : Prop := (dirNames d).Nodup

theorem any_eq_mem_dirNames (d : Dir) (n : Chars) :
    d.any (fun f => f.1 == n) = true ↔ n ∈ dirNames d := by
  rw [List.any_eq_true]
  unfold dirNames
  rw [List.mem_map]
  constructor
  · rintro ⟨f, hf, he⟩
    exact ⟨f, hf, by simpa using he⟩
  · rintro ⟨f, hf, he⟩
    exact ⟨f, hf, by simpa using he⟩

theorem lookupFile_nil (n : Chars) : lookupFile [] n = none := rfl

theorem lookupFile_cons (f : Chars × Chars) (d : Dir) (n : Chars) :
    lookupFile (f :: d) n = if f.1 = n then some f.2 else lookupFile d n := by
  unfold lookupFile
  by_cases h : f.1 = n
  · rw [if_pos h, @List.find?_cons_of_pos _ (fun g => g.1 == n) f d (by simpa using h)]
    rfl
  · rw [if_neg h, @List.find?_cons_of_neg _ (fun g => g.1 == n) f d (by simpa using h)]

theorem lookupFile_eq_none_iff (d : Dir) (n : Chars) :
    lookupFile d n = none ↔ n ∉ dirNames d := by
  induction d with
  | nil => simp [lookupFile_nil, dirNames]
  | cons f rest ih =>
    rw [lookupFile_cons]
    by_cases h : f.1 = n
    · simp [h, dirNames]
    · simp only [if_neg h, ih]
      unfold dirNames
      simp only [List.map_cons, List.mem_cons]
      constructor
      · intro hn hmem
        rcases hmem with hmem | hmem
        · exact h hmem.symm
        · exact hn hmem
      · intro hn hmem
        exact hn (.inr hmem)

theorem lookupFile_isSome_of_mem {d : Dir} {n : Chars} (h : n ∈ dirNames d) :
    ∃ c, lookupFile d n = some c := by
  cases hl : lookupFile d n with
  | none => exact absurd ((lookupFile_eq_none_iff d n).1 hl) (by simpa using h)
  | some c => exact ⟨c, rfl⟩

theorem mem_dirNames_of_lookupFile {d : Dir} {n c : Chars} (h : lookupFile d n = some c) :
    n ∈ dirNames d := by
  by_contra hmem
  rw [← lookupFile_eq_none_iff] at hmem
  rw [hmem] at h
  cases h

theorem lookupFile_writeFile_self (d : Dir) (n c : Chars) :
    lookupFile (writeFile d n c) n = some c := by
  unfold writeFile
  by_cases ha : d.any (fun f => f.1 == n) = true
  · rw [if_pos ha]
    induction d with
    | nil => cases ha
    | cons f rest ih =>
      rw [List.map_cons]
      by_cases hf : f.1 = n
      · rw [if_pos (by simpa using hf), lookupFile_cons]
        rw [if_pos rfl]
      · rw [if_neg (by simpa using hf), lookupFile_cons, if_neg hf]
        refine ih ?_
        rcases List.any_eq_true.1 ha with ⟨g, hg, he⟩
        rcases List.mem_cons.1 hg with rfl | hg
        · exact absurd (by simpa using he) hf
        · exact List.any_eq_true.2 ⟨g, hg, he⟩
  · rw [if_neg ha]
    induction d with
    | nil => rw [List.nil_append, lookupFile_cons, if_pos rfl]
    | cons f rest ih =>
      rw [List.cons_append, lookupFile_cons]
      have hf : f.1 ≠ n := by
        intro hh
        exact ha (List.any_eq_true.2 ⟨f, List.mem_cons_self f rest, by simpa using hh⟩)
      rw [if_neg hf]
      refine ih ?_
      intro hrest
      rcases List.any_eq_true.1 hrest with ⟨g, hg, he⟩
      exact ha (List.any_eq_true.2 ⟨g, List.mem_cons_of_mem f hg, he⟩)

theorem lookupFile_writeFile_other (d : Dir) {n m : Chars} (c : Chars) (h : m ≠ n) :
    lookupFile (writeFile d n c) m = lookupFile d m := by
  unfold writeFile
  by_cases ha : d.any (fun f => f.1 == n) = true
  · rw [if_pos ha]
    clear ha
    induction d with
    | nil => rfl
    | cons f rest ih =>
      rw [List.map_cons]
      by_cases hf : f.1 = n
      · rw [show (if (f.1 == n) = true then (n, c) else f) = (n, c) from by simp [hf]]
        rw [lookupFile_cons, lookupFile_cons]
        rw [if_neg (show ¬(n, c).1 = m from fun hh => h hh.symm)]
        rw [if_neg (show ¬f.1 = m from by rw [hf]; exact fun hh => h hh.symm)]
        exact ih
      · rw [show (if (f.1 == n) = true then (n, c) else f) = f from by simp [hf]]
        rw [lookupFile_cons, lookupFile_cons]
        by_cases hfm : f.1 = m
        · rw [if_pos hfm, if_pos hfm]
        · rw [if_neg hfm, if_neg hfm]
          exact ih
  · rw [if_neg ha]
    clear ha
    induction d with
    | nil =>
      rw [List.nil_append, lookupFile_cons, if_neg (fun hh => h hh.symm)]
    | cons f rest ih =>
      rw [List.cons_append, lookupFile_cons, lookupFile_cons]
      by_cases hfm : f.1 = m
      · rw [if_pos hfm, if_pos hfm]
      · rw [if_neg hfm, if_neg hfm]
        exact ih

theorem map_update_id_of_not_mem {d : Dir} {n : Chars} (h : n ∉ dirNames d) (c : Chars) :
    d.map (fun f => if (f.1 == n) = true then (n, c) else f) = d := by
  induction d with
  | nil => rfl
  | cons f rest ih =>
    have hf : f.1 ≠ n := by
      intro hh
      exact h (by unfold dirNames; simp [hh])
    have hrest : n ∉ dirNames rest := by
      intro hh
      exact h (by unfold dirNames at hh ⊢; simp; right; simpa using hh)
    rw [List.map_cons, show (if (f.1 == n) = true then (n, c) else f) = f from by simp [hf],
      ih hrest]

theorem writeFile_noop {d : Dir} (h : dirWF d) {n c : Chars}
    (hl : lookupFile d n = some c) : writeFile d n c = d := by
  unfold writeFile
  rw [if_pos ((any_eq_mem_dirNames d n).2 (mem_dirNames_of_lookupFile hl))]
  induction d with
  | nil => cases hl
  | cons f rest ih =>
    unfold dirWF dirNames at h
    rw [List.map_cons] at h
    obtain ⟨hh, ht⟩ := List.nodup_cons.1 h
    rw [lookupFile_cons] at hl
    by_cases hf : f.1 = n
    · rw [if_pos hf] at hl
      injection hl with hl
      rw [List.map_cons, show (if (f.1 == n) = true then (n, c) else f) = f from by
        rw [if_pos (by simpa using hf : (f.1 == n) = true), ← hf, ← hl]]
      rw [map_update_id_of_not_mem (hf ▸ hh : n ∉ dirNames rest) c]
    · rw [if_neg hf] at hl
      rw [List.map_cons, show (if (f.1 == n) = true then (n, c) else f) = f from by simp [hf],
        ih ht hl]

theorem dirNames_writeFile_mem {d : Dir} {n : Chars} (h : n ∈ dirNames d) (c : Chars) :
    dirNames (writeFile d n c) = dirNames d := by
  unfold writeFile
  rw [if_pos ((any_eq_mem_dirNames d n).2 h)]
  clear h
  induction d with
  | nil => rfl
  | cons f rest ih =>
    rw [List.map_cons]
    unfold dirNames
    rw [List.map_cons, List.map_cons]
    by_cases hf : f.1 = n
    · rw [show (if (f.1 == n) = true then (n, c) else f) = (n, c) from by simp [hf]]
      unfold dirNames at ih
      rw [show ((n, c).1 : Chars) = f.1 from hf.symm]
      exact congrArg (f.1 :: ·) ih
    · rw [show (if (f.1 == n) = true then (n, c) else f) = f from by simp [hf]]
      unfold dirNames at ih
      exact congrArg (f.1 :: ·) ih

theorem dirNames_writeFile_not_mem {d : Dir} {n : Chars} (h : n ∉ dirNames d) (c : Chars) :
    dirNames (writeFile d n c) = dirNames d ++ [n] := by
  unfold writeFile
  rw [if_neg (fun ha => h ((any_eq_mem_dirNames d n).1 ha))]
  unfold dirNames
  rw [List.map_append]
  rfl

theorem dirWF_writeFile {d : Dir} (h : dirWF d) (n c : Chars) : dirWF (writeFile d n c) := by
  by_cases hm : n ∈ dirNames d
  · unfold dirWF
    rw [dirNames_writeFile_mem hm c]
    exact h
  · unfold dirWF
    rw [dirNames_writeFile_not_mem hm c]
    simpa [List.nodup_append] using ⟨h, hm⟩

theorem dirNames_renameFile (d : Dir) (o n : Chars) :
    dirNames (renameFile d o n) = (dirNames d).map (fun m => if m = o then n else m) := by
  induction d with
  | nil => rfl
  | cons f rest ih =>
    unfold renameFile dirNames at ih ⊢
    by_cases hf : f.1 = o
    · simp only [List.map_cons,
        show (if (f.1 == o) = true then (n, f.2) else f) = (n, f.2) from by simp [hf],
        show (if f.1 = o then n else f.1) = n from by simp [hf]]
      exact congrArg (n :: ·) ih
    · simp only [List.map_cons,
        show (if (f.1 == o) = true then (n, f.2) else f) = f from by simp [hf],
        show (if f.1 = o then n else f.1) = f.1 from by simp [hf]]
      exact congrArg (f.1 :: ·) ih

theorem lookupFile_renameFile_other (d : Dir) {o n m : Chars} (h1 : m ≠ o) (h2 : m ≠ n) :
    lookupFile (renameFile d o n) m = lookupFile d m := by
  induction d with
  | nil => rfl
  | cons f rest ih =>
    unfold renameFile at ih ⊢
    rw [List.map_cons, lookupFile_cons]
    by_cases hf : f.1 = o
    · rw [show (if (f.1 == o) = true then (n, f.2) else f) = (n, f.2) from by simp [hf]]
      rw [lookupFile_cons, if_neg (show ¬(n, f.2).1 = m from fun hh => h2 hh.symm),
        if_neg (show ¬f.1 = m from by rw [hf]; exact fun hh => h1 hh.symm)]
      exact ih
    · rw [show (if (f.1 == o) = true then (n, f.2) else f) = f from by simp [hf],
        lookupFile_cons]
      by_cases hfm : f.1 = m
      · rw [if_pos hfm, if_pos hfm]
      · rw [if_neg hfm, if_neg hfm]
        exact ih

theorem lookupFile_renameFile_new (d : Dir) {o n : Chars} (h : n ∉ dirNames d) :
    lookupFile (renameFile d o n) n = lookupFile d o := by
  induction d with
  | nil => rfl
  | cons f rest ih =>
    have hf : f.1 ≠ n := by
      intro hh
      exact h (by unfold dirNames; simp [hh])
    have hrest : n ∉ dirNames rest := by
      intro hh
      exact h (by unfold dirNames at hh ⊢; simp; right; simpa using hh)
    unfold renameFile at ih ⊢
    rw [List.map_cons, lookupFile_cons]
    by_cases hfo : f.1 = o
    · rw [show (if (f.1 == o) = true then (n, f.2) else f) = (n, f.2) from by simp [hfo],
        lookupFile_cons, if_pos rfl, if_pos hfo]
    · rw [show (if (f.1 == o) = true then (n, f.2) else f) = f from by simp [hfo],
        lookupFile_cons, if_neg hf, if_neg hfo]
      exact ih hrest

theorem nodup_map_rename {L : List Chars} {o n : Chars} (h : L.Nodup) (hn : n ∉ L) :
    (L.map (fun m => if m = o then n else m)).Nodup := by
  induction L with
  | nil => exact List.Pairwise.nil
  | cons m rest ih =>
    obtain ⟨hm, hrest⟩ := List.nodup_cons.1 h
    have hn' : n ∉ rest := fun hh => hn (List.mem_cons_of_mem m hh)
    rw [List.map_cons]
    refine List.nodup_cons.2 ⟨?_, ih hrest hn'⟩
    intro hmem
    rw [List.mem_map] at hmem
    obtain ⟨x, hx, hxe⟩ := hmem
    by_cases hxo : x = o
    · rw [if_pos hxo] at hxe
      by_cases hmo : m = o
      · rw [if_pos hmo] at hxe
        apply hm
        rw [hmo, ← hxo]
        exact hx
      · rw [if_neg hmo] at hxe
        apply hn
        rw [hxe]
        exact List.mem_cons_self m rest
    · rw [if_neg hxo] at hxe
      by_cases hmo : m = o
      · rw [if_pos hmo] at hxe
        exact hn' (hxe ▸ hx)
      · rw [if_neg hmo] at hxe
        exact hm (hxe ▸ hx)

theorem dirWF_renameFile {d : Dir} (h : dirWF d) {o n : Chars} (hn : n ∉ dirNames d) :
    dirWF (renameFile d o n) := by
  unfold dirWF
  rw [dirNames_renameFile]
  exact nodup_map_rename h hn

/-! ### Effects of one `_normalize_root_file` call -/

theorem lookupFile_writtenRoot_self {root : Dir} {name text : Chars} (norm : Chars)
    (hl : lookupFile root name = some text) :
    lookupFile (writtenRoot root name text norm) name = some norm := by
  unfold writtenRoot
  by_cases he : norm == text
  · rw [if_pos he, hl]
    have : norm = text := by simpa using he
    rw [this]
  · rw [if_neg he]
    exact lookupFile_writeFile_self root name norm

theorem lookupFile_writtenRoot_other {root : Dir} {name m : Chars} (text norm : Chars)
    (h : m ≠ name) :
    lookupFile (writtenRoot root name text norm) m = lookupFile root m := by
  unfold writtenRoot
  by_cases he : norm == text
  · rw [if_pos he]
  · rw [if_neg he]
    exact lookupFile_writeFile_other root norm h

theorem dirNames_writtenRoot {root : Dir} {name : Chars} (text norm : Chars)
    (h : name ∈ dirNames root) :
    dirNames (writtenRoot root name text norm) = dirNames root := by
  unfold writtenRoot
  by_cases he : norm == text
  · rw [if_pos he]
  · rw [if_neg he]
    exact dirNames_writeFile_mem h norm

theorem dirWF_writtenRoot {root : Dir} (hwf : dirWF root) (name text norm : Chars) :
    dirWF (writtenRoot root name text norm) := by
  unfold writtenRoot
  by_cases he : norm == text
  · rw [if_pos he]; exact hwf
  · rw [if_neg he]; exact dirWF_writeFile hwf name norm

theorem map_ite_id (L : List Chars) (name : Chars) :
    L.map (fun m => if m = name then name else m) = L := by
  have : (fun m : Chars => if m = name then name else m) = id := by
    funext m
    by_cases h : m = name
    · rw [if_pos h, h]; rfl
    · rw [if_neg h]; rfl
  rw [this, List.map_id]

/-- All the invariants a successful `_normalize_root_file` call establishes. -/
theorem normalize_root_file_ok {root : Dir} {name : Chars} {num : Nat} {root' : Dir}
    {evs : List Ev} {t : Nat × Chars × Chars}
    (hwf : dirWF root)
    (he : normalize_root_file root name num = (root', evs, .ok t)) :
    ∃ text norm h,
      lookupFile root name = some text ∧
      normalizeText text = some (norm, h) ∧
      t = (num, h, expectedName num h) ∧
      lookupFile root' (expectedName num h) = some norm ∧
      normalizeText norm = some (norm, h) ∧
      dirNames root' = (dirNames root).map (fun m => if m = name then expectedName num h else m) ∧
      dirWF root' ∧
      (expectedName num h = name ∨ expectedName num h ∉ dirNames root) ∧
      (∀ m, m ≠ name → m ≠ expectedName num h →
        lookupFile root' m = lookupFile root m) := by
  unfold normalize_root_file at he
  split at he
  next hl =>
    injection he with heA heB
    injection heB with heC heD
    cases heD
  next text hl =>
    split at he
    next hn =>
      injection he with heA heB
      injection heB with heC heD
      cases heD
    next norm h hn =>
      have hmem : name ∈ dirNames root := mem_dirNames_of_lookupFile hl
      split at he
      next hne =>
        have hnev : name = expectedName num h := by simpa using hne
        injection he with he1 he2
        injection he2 with he2 he3
        injection he3 with he3
        refine ⟨text, norm, h, hl, hn, ?_, ?_, normalizeText_fixpoint hn, ?_, ?_, ?_, ?_⟩
        · rw [← he3, ← hnev]
        · rw [← he1, ← hnev]
          exact lookupFile_writtenRoot_self norm hl
        · rw [← he1, ← hnev, map_ite_id, dirNames_writtenRoot text norm hmem]
        · rw [← he1]
          exact dirWF_writtenRoot hwf name text norm
        · exact .inl hnev.symm
        · intro m hm1 hm2
          rw [← he1]
          exact lookupFile_writtenRoot_other text norm hm1
      next hne =>
        have hnev : name ≠ expectedName num h := by simpa using hne
        split at he
        next hex =>
          injection he with he1 he2
          injection he2 with he2 he3
          cases he3
        next hex =>
          injection he with he1 he2
          injection he2 with he2 he3
          injection he3 with he3
          have hnex : expectedName num h ∉ dirNames (writtenRoot root name text norm) := by
            intro hh
            exact hex ((any_eq_mem_dirNames _ _).2 hh)
          have hnexroot : expectedName num h ∉ dirNames root := by
            rwa [dirNames_writtenRoot text norm hmem] at hnex
          refine ⟨text, norm, h, hl, hn, ?_, ?_, normalizeText_fixpoint hn, ?_, ?_, ?_, ?_⟩
          · rw [← he3]
          · rw [← he1, lookupFile_renameFile_new _ hnex]
            exact lookupFile_writtenRoot_self norm hl
          · rw [← he1, dirNames_renameFile, dirNames_writtenRoot text norm hmem]
          · rw [← he1]
            exact dirWF_renameFile (dirWF_writtenRoot hwf name text norm) hnex
          · exact .inr hnexroot
          · intro m hm1 hm2
            rw [← he1, lookupFile_renameFile_other _ hm1 hm2]
            exact lookupFile_writtenRoot_other text norm hm1

/-- A chapter file already carrying its canonical content and canonical name
is left completely untouched: no write, no rename, no events. -/
theorem normalize_root_file_canonical {root : Dir} {name text h : Chars} {num : Nat}
    (hl : lookupFile root name = some text)
    (hn : normalizeText text = some (text, h))
    (hc : name = expectedName num h) :
    normalize_root_file root name num = (root, [], .ok (num, h, name)) := by
  unfold normalize_root_file
  simp only [hl, hn]
  rw [if_pos (by simpa using hc)]
  unfold writtenRoot writtenEvs
  rw [if_pos (by simp), if_pos (by simp)]

theorem normalize_root_file_missing {root : Dir} {name text : Chars} {num : Nat}
    (hl : lookupFile root name = some text) (hn : normalizeText text = none) :
    normalize_root_file root name num = (root, [], .error .missingHeading) := by
  unfold normalize_root_file
  simp only [hl, hn]

/-- When the canonical target name is already occupied and differs from the
current name, the call raises the collision error. -/
theorem normalize_root_file_collision_trigger {root : Dir} {name text norm h : Chars}
    {num : Nat}
    (hl : lookupFile root name = some text)
    (hn : normalizeText text = some (norm, h))
    (hne : name ≠ expectedName num h)
    (hex : expectedName num h ∈ dirNames root) :
    (normalize_root_file root name num).2.2 =
      .error (.nameCollision (expectedName num h)) := by
  unfold normalize_root_file
  simp only [hl, hn]
  rw [if_neg (by simpa using hne)]
  rw [if_pos ((any_eq_mem_dirNames _ _).2 (by
    rwa [dirNames_writtenRoot text norm (mem_dirNames_of_lookupFile hl)]))]

/-- Frame conditions common to every outcome of `_normalize_root_file`:
other existing files and non-chapter names keep their contents, and all its
events are root-file events. -/
theorem normalize_root_file_frame {root : Dir} {name : Chars} {num : Nat} {root' : Dir}
    {evs : List Ev} {r : Except SyncError (Nat × Chars × Chars)}
    (he : normalize_root_file root name num = (root', evs, r)) :
    (∀ m, m ≠ name → chapterMatch m = none → lookupFile root' m = lookupFile root m) ∧
    (∀ m, m ≠ name → m ∈ dirNames root → lookupFile root' m = lookupFile root m) ∧
    (∀ e ∈ evs, (∃ a b, e = .writeRoot a b) ∨ (∃ a b, e = .renameRoot a b)) := by
  unfold normalize_root_file at he
  split at he
  next hl =>
    injection he with heA heB
    injection heB with heC heD
    rw [← heA, ← heC]
    exact ⟨fun m _ _ => rfl, fun m _ _ => rfl, by simp⟩
  next text hl =>
    split at he
    next hn =>
      injection he with heA heB
      injection heB with heC heD
      rw [← heA, ← heC]
      exact ⟨fun m _ _ => rfl, fun m _ _ => rfl, by simp⟩
    next norm h hn =>
      have hmem : name ∈ dirNames root := mem_dirNames_of_lookupFile hl
      have hevs : ∀ e ∈ writtenEvs name text norm,
          (∃ a b, e = Ev.writeRoot a b) ∨ (∃ a b, e = Ev.renameRoot a b) := by
        intro e hee
        unfold writtenEvs at hee
        by_cases hb : norm == text
        · rw [if_pos hb] at hee; cases hee
        · rw [if_neg hb] at hee
          rcases List.mem_singleton.1 hee with rfl
          exact .inl ⟨name, norm, rfl⟩
      split at he
      next hne =>
        injection he with he1 he2
        injection he2 with he2 he3
        rw [← he1, ← he2]
        exact ⟨fun m hm _ => lookupFile_writtenRoot_other text norm hm,
          fun m hm _ => lookupFile_writtenRoot_other text norm hm, hevs⟩
      next hne =>
        split at he
        next hex =>
          injection he with he1 he2
          injection he2 with he2 he3
          rw [← he1, ← he2]
          exact ⟨fun m hm _ => lookupFile_writtenRoot_other text norm hm,
            fun m hm _ => lookupFile_writtenRoot_other text norm hm, hevs⟩
        next hex =>
          injection he with he1 he2
          injection he2 with he2 he3
          rw [← he1, ← he2]
          have hnex : expectedName num h ∉ dirNames root := by
            intro hh
            refine hex ((any_eq_mem_dirNames _ _).2 ?_)
            rwa [dirNames_writtenRoot text norm hmem]
          refine ⟨?_, ?_, ?_⟩
          · intro m hm1 hm2
            have hm3 : m ≠ expectedName num h := by
              intro hh
              rw [hh, chapterMatch_expectedName] at hm2
              cases hm2
            rw [lookupFile_renameFile_other _ hm1 hm3]
            exact lookupFile_writtenRoot_other text norm hm1
          · intro m hm1 hm2
            have hm3 : m ≠ expectedName num h := by
              intro hh
              rw [hh] at hm2
              exact hnex hm2
            rw [lookupFile_renameFile_other _ hm1 hm3]
            exact lookupFile_writtenRoot_other text norm hm1
          · intro e hee
            rcases List.mem_append.1 hee with hee | hee
            · exact hevs e hee
            · rcases List.mem_singleton.1 hee with rfl
              exact .inr ⟨name, expectedName num h, rfl⟩

/-! ### The gathering loop -/

theorem expectedName_num_inj {n n' : Nat} {h h' : Chars}
    (he : expectedName n h = expectedName n' h') : n = n' := by
  have h1 := chapterMatch_expectedName n h
  rw [he, chapterMatch_expectedName n' h'] at h1
  injection h1 with h1
  exact h1.symm

/-- On a root directory where every listed chapter is already canonical (name
and content), the gathering loop is a complete no-op. -/
theorem gatherGo_fixpoint : ∀ (chs : List (Nat × Chars × Chars)) (root : Dir) (idx : Nat),
    (∀ j (hj : j < chs.length), (chs.get ⟨j, hj⟩).1 = idx + j) →
    (∀ t ∈ chs, t.2.2 = expectedName t.1 t.2.1 ∧
      ∃ c, lookupFile root t.2.2 = some c ∧ normalizeText c = some (c, t.2.1)) →
    gatherGo root (chs.map (fun t => t.2.2)) idx = (root, [], .ok chs)
  | [], root, idx, _, _ => rfl
  | t :: rest, root, idx, hnum, hcan => by
    obtain ⟨hexp, c, hl, hn⟩ := hcan t (List.mem_cons_self t rest)
    have ht1 : t.1 = idx := by
      have := hnum 0 (by simp)
      simpa using this
    have hstep : normalize_root_file root t.2.2 idx = (root, [], .ok t) := by
      have hone := normalize_root_file_canonical hl hn (by rw [hexp, ht1])
      rw [hone]
      rw [show (idx, t.2.1, t.2.2) = t from by rw [← ht1]]
    have hrec : gatherGo root (rest.map (fun t => t.2.2)) (idx + 1) = (root, [], .ok rest) := by
      refine gatherGo_fixpoint rest root (idx + 1) ?_ ?_
      · intro j hj
        have := hnum (j + 1) (by simpa using Nat.succ_lt_succ hj)
        simp only [List.get_cons_succ] at this
        rw [this]
        omega
      · exact fun t' ht' => hcan t' (List.mem_cons_of_mem t ht')
    rw [List.map_cons, gatherGo]
    simp only [hstep, hrec]
    rfl

/-- On failure, the gathering loop has only touched the failing candidate and
those before it: all later candidates keep their contents, non-chapter names
are never written, and only root events are emitted. -/
theorem gatherGo_error : ∀ (cands : List Chars) (root : Dir) (idx : Nat) {root' : Dir}
    {evs : List Ev} {e : SyncError},
    gatherGo root cands idx = (root', evs, .error e) →
    dirWF root → cands.Nodup → (∀ m ∈ cands, m ∈ dirNames root) →
    (∀ m, m ∉ cands → chapterMatch m = none → lookupFile root' m = lookupFile root m) ∧
    (∀ ev ∈ evs, (∃ a b, ev = Ev.writeRoot a b) ∨ (∃ a b, ev = Ev.renameRoot a b)) ∧
    ∃ pre bad post, cands = pre ++ bad :: post ∧
      ∀ m ∈ post, lookupFile root' m = lookupFile root m
  | [], root, idx, root', evs, e, he, _, _, _ => by cases he
  | name :: rest, root, idx, root', evs, e, he, hwf, hnd, hmem => by
    rw [gatherGo] at he
    obtain ⟨hname, hndrest⟩ := List.nodup_cons.1 hnd
    split at he
    next root1 evs1 e1 hstep =>
      injection he with he1 he2
      injection he2 with he2 he3
      obtain ⟨hfr1, hfr2, hevs1⟩ := normalize_root_file_frame hstep
      refine ⟨?_, ?_, [], name, rest, rfl, ?_⟩
      · intro m hm1 hm2
        rw [← he1]
        exact hfr1 m (fun hh => hm1 (hh ▸ List.mem_cons_self name rest)) hm2
      · intro ev hev
        rw [← he2] at hev
        exact hevs1 ev hev
      · intro m hm
        rw [← he1]
        exact hfr2 m (fun hh => hname (hh ▸ hm))
          (hmem m (List.mem_cons_of_mem name hm))
    next root1 evs1 t hstep =>
      obtain ⟨hfr1, hfr2, hevs1⟩ := normalize_root_file_frame hstep
      obtain ⟨text, norm, h, hl, hn, ht, hlook, hfix, hnames, hwf1, hnew, hfr⟩ :=
        normalize_root_file_ok hwf hstep
      split at he
      next root2 evs2 e2 hrec =>
        injection he with he1 he2
        injection he2 with he2 he3
        injection he3 with he3
        have hmemrest : ∀ m ∈ rest, m ∈ dirNames root1 := by
          intro m hm
          have hne : m ≠ name := fun hh => hname (hh ▸ hm)
          have hx := hfr2 m hne (hmem m (List.mem_cons_of_mem name hm))
          obtain ⟨c0, hc0⟩ := lookupFile_isSome_of_mem
            (hmem m (List.mem_cons_of_mem name hm))
          exact mem_dirNames_of_lookupFile (by rw [hx, hc0])
        obtain ⟨ihfr1, ihevs, pre, bad, post, hsplit, ihpost⟩ :=
          gatherGo_error rest root1 (idx + 1) hrec hwf1 hndrest hmemrest
        refine ⟨?_, ?_, name :: pre, bad, post, by rw [hsplit, List.cons_append], ?_⟩
        · intro m hm1 hm2
          rw [← he1]
          have hm1' : m ∉ rest := fun hh => hm1 (List.mem_cons_of_mem name hh)
          rw [ihfr1 m hm1' hm2]
          exact hfr1 m (fun hh => hm1 (hh ▸ List.mem_cons_self name rest)) hm2
        · intro ev hev
          rw [← he2] at hev
          rcases List.mem_append.1 hev with hev | hev
          · exact hevs1 ev hev
          · exact ihevs ev hev
        · intro m hm
          rw [← he1]
          have hmrest : m ∈ rest := by rw [hsplit]; simp [hm]
          rw [ihpost m hm]
          exact hfr2 m (fun hh => hname (hh ▸ hmrest))
            (hmem m (List.mem_cons_of_mem name hmrest))
      next root2 evs2 ts hrec =>
        injection he with he1 he2
        injection he2 with he2 he3
        cases he3

/-- Rename lookup table: maps an original candidate name to the canonical name
its chapter received, and leaves all other names unchanged. -/
def renName (assoc : List (Chars × Chars)) (m : Chars) : Chars :=
  match assoc.find? (fun p => p.1 == m) with
  | some p => p.2
  | none => m

theorem renName_nil (m : Chars) : renName [] m = m := rfl

theorem renName_cons (a b m : Chars) (assoc : List (Chars × Chars)) :
    renName ((a, b) :: assoc) m = if a = m then b else renName assoc m := by
  unfold renName
  by_cases h : a = m
  · rw [if_pos h, @List.find?_cons_of_pos _ (fun p => p.1 == m) (a, b) assoc (by simpa using h)]
  · rw [if_neg h, @List.find?_cons_of_neg _ (fun p => p.1 == m) (a, b) assoc (by simpa using h)]

theorem renName_not_mem {assoc : List (Chars × Chars)} {m : Chars}
    (h : m ∉ assoc.map Prod.fst) : renName assoc m = m := by
  induction assoc with
  | nil => rfl
  | cons p rest ih =>
    obtain ⟨a, b⟩ := p
    rw [renName_cons]
    rw [List.map_cons] at h
    have h1 : ¬ a = m := fun hh => h (by rw [← hh]; exact List.mem_cons_self _ _)
    have h2 : m ∉ rest.map Prod.fst := fun hh => h (List.mem_cons_of_mem _ hh)
    rw [if_neg h1, ih h2]

/-- Everything a successful gathering pass guarantees: sequential numbering
from `idx`, canonical names with fixed-point contents in the final directory,
the name-level rename map, well-formedness, and a frame condition for
untouched files. -/
theorem gatherGo_ok : ∀ (cands : List Chars) (root : Dir) (idx : Nat) {root' : Dir}
    {evs : List Ev} {chs : List (Nat × Chars × Chars)},
    gatherGo root cands idx = (root', evs, .ok chs) →
    dirWF root → cands.Nodup → (∀ m ∈ cands, m ∈ dirNames root) →
    chs.map (fun t => t.1) = List.range' idx cands.length ∧
    (∀ t ∈ chs, t.2.2 = expectedName t.1 t.2.1 ∧
      ∃ c, lookupFile root' t.2.2 = some c ∧ normalizeText c = some (c, t.2.1)) ∧
    dirNames root' = (dirNames root).map (renName (cands.zip (chs.map (fun t => t.2.2)))) ∧
    dirWF root' ∧
    (∀ m, m ∉ cands → (∀ t ∈ chs, m ≠ t.2.2) → lookupFile root' m = lookupFile root m)
  | [], root, idx, root', evs, chs, he, hwf, _, _ => by
    injection he with he1 he2
    injection he2 with he2 he3
    injection he3 with he3
    rw [← he1, ← he3]
    refine ⟨rfl, by simp, ?_, hwf, fun m _ _ => rfl⟩
    rw [show (([] : List Chars).zip (([] : List (Nat × Chars × Chars)).map (fun t => t.2.2)))
      = [] from rfl]
    rw [show (dirNames root).map (renName []) = (dirNames root).map id from
      List.map_congr_left (fun a _ => renName_nil a)]
    rw [List.map_id]
  | name :: rest, root, idx, root', evs, chs, he, hwf, hnd, hmem => by
    rw [gatherGo] at he
    obtain ⟨hname, hndrest⟩ := List.nodup_cons.1 hnd
    split at he
    next root1 evs1 e1 hstep =>
      injection he with he1 he2
      injection he2 with he2 he3
      cases he3
    next root1 evs1 t hstep =>
      obtain ⟨hfr1, hfr2, hevs1⟩ := normalize_root_file_frame hstep
      obtain ⟨text, norm, h, hl, hn, ht, hlook, hfix, hnames, hwf1, hnew, hfr⟩ :=
        normalize_root_file_ok hwf hstep
      split at he
      next root2 evs2 e2 hrec =>
        injection he with he1 he2
        injection he2 with he2 he3
        cases he3
      next root2 evs2 ts hrec =>
        injection he with he1 he2
        injection he2 with he2 he3
        injection he3 with he3
        have hmemrest : ∀ m ∈ rest, m ∈ dirNames root1 := by
          intro m hm
          have hne : m ≠ name := fun hh => hname (hh ▸ hm)
          have hx := hfr2 m hne (hmem m (List.mem_cons_of_mem name hm))
          obtain ⟨c0, hc0⟩ := lookupFile_isSome_of_mem
            (hmem m (List.mem_cons_of_mem name hm))
          exact mem_dirNames_of_lookupFile (by rw [hx, hc0])
        obtain ⟨ih1, ih2, ih3, ih4, ih5⟩ :=
          gatherGo_ok rest root1 (idx + 1) hrec hwf1 hndrest hmemrest
        have htslen : ts.length = rest.length := by
          have := congrArg List.length ih1
          simpa using this
        have hE := ht
        have hENotRest : expectedName idx h ∉ rest := by
          rcases hnew with hh | hh
          · rw [hh]; exact hname
          · intro hmm
            exact hh (hmem _ (List.mem_cons_of_mem name hmm))
        have hEnotTs : ∀ t' ∈ ts, expectedName idx h ≠ t'.2.2 := by
          intro t' ht' heq
          obtain ⟨hexp', -⟩ := ih2 t' ht'
          rw [hexp'] at heq
          have hnum' := expectedName_num_inj heq
          have ht'mem : t'.1 ∈ ts.map (fun t => t.1) := List.mem_map.2 ⟨t', ht', rfl⟩
          rw [ih1] at ht'mem
          have := (List.mem_range'_1).1 ht'mem
          omega
        rw [← he3, ← he1]
        refine ⟨?_, ?_, ?_, ih4, ?_⟩
        · rw [List.map_cons, ht]
          show idx :: ts.map (fun t => t.1) = List.range' idx ((name :: rest).length)
          rw [ih1, List.length_cons, List.range'_succ idx rest.length 1]
        · intro t' ht'
          rcases List.mem_cons.1 ht' with rfl | ht'
          · refine ⟨by rw [ht], ?_⟩
            rw [ht]
            show ∃ c, lookupFile root2 (expectedName idx h) = some c ∧
              normalizeText c = some (c, h)
            rw [ih5 (expectedName idx h) hENotRest hEnotTs]
            exact ⟨norm, hlook, hfix⟩
          · exact ih2 t' ht'
        · rw [ih3, hnames, List.map_map]
          apply List.map_congr_left
          intro m hmm
          show renName (rest.zip (ts.map (fun t => t.2.2)))
              (if m = name then expectedName idx h else m) =
            renName (((name :: rest).zip ((t :: ts).map (fun t => t.2.2)))) m
          rw [List.map_cons, ht]
          show _ = renName ((name, expectedName idx h) ::
            rest.zip (ts.map (fun t => t.2.2))) m
          rw [renName_cons]
          by_cases hmn : m = name
          · rw [if_pos hmn, if_pos hmn.symm]
            apply renName_not_mem
            rw [List.map_fst_zip]
            · exact hENotRest
            · rw [List.length_map, htslen]
          · rw [if_neg hmn, if_neg (fun hh => hmn hh.symm)]
        · intro m hm1 hm2
          have hm1' : m ∉ rest := fun hh => hm1 (List.mem_cons_of_mem name hh)
          have hmname : m ≠ name := fun hh => hm1 (hh ▸ List.mem_cons_self name rest)
          have hmE : m ≠ expectedName idx h := by
            have := hm2 t (List.mem_cons_self t ts)
            rwa [ht] at this
          rw [ih5 m hm1' (fun t' ht' => hm2 t' (List.mem_cons_of_mem t ht'))]
          exact hfr m hmname hmE

/-! ### Candidates at the run level -/

/-- The chapter candidates as a function of the name listing only. -/
def candsOfNames (names : List Chars) : List (Nat × Chars) :=
  names.filterMap (fun m => (chapterMatch m).map (fun n => (n, m)))

theorem chapterCandidates_eq (root : Dir) :
    chapterCandidates root = candsOfNames (dirNames root) := by
  unfold chapterCandidates candsOfNames dirNames
  rw [List.filterMap_map]
  rfl

theorem candsOfNames_snd_sublist (names : List Chars) :
    List.Sublist ((candsOfNames names).map (fun p => p.2)) names := by
  induction names with
  | nil => exact List.Sublist.refl []
  | cons m rest ih =>
    unfold candsOfNames
    rw [List.filterMap_cons]
    cases hm : chapterMatch m with
    | none => exact ih.cons m
    | some n =>
      rw [Option.map_some']
      rw [List.map_cons]
      exact ih.cons₂ m

theorem candsOfNames_key {names : List Chars} {p : Nat × Chars}
    (h : p ∈ candsOfNames names) : chapterMatch p.2 = some p.1 ∧ p.2 ∈ names := by
  unfold candsOfNames at h
  rw [List.mem_filterMap] at h
  obtain ⟨m, hm, he⟩ := h
  cases hcm : chapterMatch m with
  | none => rw [hcm] at he; cases he
  | some n =>
    rw [hcm, Option.map_some'] at he
    injection he with he
    rw [← he]
    exact ⟨hcm, hm⟩

/-- The sorted candidate name list fed to the gathering loop. -/
def sortedCandNames (root : Dir) : List Chars :=
  (sortByKey (chapterCandidates root)).map (fun p => p.2)

theorem sortedCandNames_nodup {root : Dir} (hwf : dirWF root) :
    (sortedCandNames root).Nodup := by
  unfold sortedCandNames
  have hperm : ((sortByKey (chapterCandidates root)).map (fun p => p.2)).Perm
      ((chapterCandidates root).map (fun p => p.2)) :=
    (sortByKey_perm (chapterCandidates root)).map (fun p => p.2)
  refine hperm.symm.nodup ?_
  rw [chapterCandidates_eq]
  exact (candsOfNames_snd_sublist (dirNames root)).nodup hwf

theorem sortedCandNames_mem {root : Dir} {m : Chars} (h : m ∈ sortedCandNames root) :
    m ∈ dirNames root ∧ ∃ n, chapterMatch m = some n := by
  unfold sortedCandNames at h
  rw [List.mem_map] at h
  obtain ⟨p, hp, rfl⟩ := h
  have hp2 : p ∈ chapterCandidates root := (sortByKey_perm _).mem_iff.1 hp
  rw [chapterCandidates_eq] at hp2
  obtain ⟨hkey, hmem⟩ := candsOfNames_key hp2
  exact ⟨hmem, p.1, hkey⟩

theorem not_mem_sortedCandNames {root : Dir} {m : Chars} (h : chapterMatch m = none) :
    m ∉ sortedCandNames root := by
  intro hmem
  obtain ⟨-, n, hn⟩ := sortedCandNames_mem hmem
  rw [h] at hn
  cases hn

/-! ### The documentation mirror -/

theorem chapterDocName_inj {n n' : Nat} (h : chapterDocName n = chapterDocName n') :
    n = n' := by
  unfold chapterDocName at h
  rw [List.append_assoc, List.append_assoc] at h
  have h1 : fmt02 n ++ chars ".md" = fmt02 n' ++ chars ".md" :=
    List.append_cancel_left h
  have h2 : fmt02 n = fmt02 n' := List.append_cancel_right h1
  have := congrArg digitsToNat h2
  rwa [digitsToNat_fmt02, digitsToNat_fmt02] at this

/-- A successful mirroring pass copies every chapter byte-for-byte and
touches nothing else in `content/docs/`. -/
theorem writeDocsCopies_ok : ∀ (chs : List (Nat × Chars × Chars)) (root docs : Dir)
    {docs' : Dir} {evs : List Ev} {r : Except SyncError Unit},
    writeDocsCopies root docs chs = (docs', evs, r) →
    (∀ t ∈ chs, ∃ c, lookupFile root t.2.2 = some c) →
    dirWF docs →
    (chs.map (fun t => t.1)).Nodup →
    r = .ok () ∧ dirWF docs' ∧
    (∀ t ∈ chs, lookupFile docs' (chapterDocName t.1) = lookupFile root t.2.2) ∧
    (∀ m, (∀ t ∈ chs, m ≠ chapterDocName t.1) → lookupFile docs' m = lookupFile docs m)
  | [], root, docs, docs', evs, r, he, _, hwf, _ => by
    injection he with he1 he2
    injection he2 with he2 he3
    rw [← he1, ← he3]
    exact ⟨rfl, hwf, by simp, fun m _ => rfl⟩
  | t :: ts, root, docs, docs', evs, r, he, hex, hwf, hnd => by
    rw [writeDocsCopies] at he
    obtain ⟨c, hc⟩ := hex t (List.mem_cons_self t ts)
    rw [show write_docs_copy root docs t.1 t.2.2 =
        (writeFile docs (chapterDocName t.1) c,
         [.writeDocs (chapterDocName t.1) c], .ok ()) from by
      unfold write_docs_copy
      simp only [hc]] at he
    simp only [] at he
    rw [List.map_cons, List.nodup_cons] at hnd
    obtain ⟨hn1, hnts⟩ := hnd
    cases hrec : writeDocsCopies root (writeFile docs (chapterDocName t.1) c) ts with
    | mk docs2 p2 =>
      obtain ⟨evs2, r2⟩ := p2
      rw [hrec] at he
      injection he with he1 he2
      injection he2 with he2 he3
      obtain ⟨hok, hwf2, hcopy, hframe⟩ := writeDocsCopies_ok ts root _ hrec
        (fun t' ht' => hex t' (List.mem_cons_of_mem t ht'))
        (dirWF_writeFile hwf _ c) hnts
      rw [← he3, ← he1]
      refine ⟨hok, hwf2, ?_, ?_⟩
      · intro t' ht'
        rcases List.mem_cons.1 ht' with rfl | ht'
        · rw [hframe (chapterDocName t'.1) ?_, lookupFile_writeFile_self, hc]
          intro t'' ht'' heq
          have := chapterDocName_inj heq
          exact hn1 (this ▸ List.mem_map.2 ⟨t'', ht'', rfl⟩)
        · exact hcopy t' ht'
      · intro m hm
        rw [hframe m (fun t' ht' => hm t' (List.mem_cons_of_mem t ht'))]
        exact lookupFile_writeFile_other docs c (hm t (List.mem_cons_self t ts))

/-- Re-mirroring identical content leaves `content/docs/` unchanged. -/
theorem writeDocsCopies_fixpoint : ∀ (chs : List (Nat × Chars × Chars)) (root docs : Dir),
    dirWF docs →
    (∀ t ∈ chs, ∃ c, lookupFile root t.2.2 = some c ∧
      lookupFile docs (chapterDocName t.1) = some c) →
    ∃ evs, writeDocsCopies root docs chs = (docs, evs, .ok ())
  | [], root, docs, _, _ => ⟨[], rfl⟩
  | t :: ts, root, docs, hwf, hfix => by
    obtain ⟨c, hc, hd⟩ := hfix t (List.mem_cons_self t ts)
    obtain ⟨evs2, hrec⟩ := writeDocsCopies_fixpoint ts root docs hwf
      (fun t' ht' => hfix t' (List.mem_cons_of_mem t ht'))
    refine ⟨[Ev.writeDocs (chapterDocName t.1) c] ++ evs2, ?_⟩
    rw [writeDocsCopies]
    rw [show write_docs_copy root docs t.1 t.2.2 =
        (docs, [.writeDocs (chapterDocName t.1) c], .ok ()) from by
      unfold write_docs_copy
      simp only [hc, writeFile_noop hwf hd]]
    simp only [hrec]

theorem build_index_files_nil (fs : FS) : build_index_files fs [] = (fs, []) := rfl

theorem chapterDocName_ne_underscore_index (n : Nat) :
    chapterDocName n ≠ chars "_index.md" := by
  intro h
  have : ('c' : Char) = '_' := by
    have h2 : chapterDocName n = 'c' :: (chars "hapter-" ++ fmt02 n ++ chars ".md") := rfl
    rw [h2] at h
    injection h with h1
  cases this

theorem chapterMatch_index_md : chapterMatch (chars "index.md") = none := by decide

theorem expectedName_ne_index_md (num : Nat) (h : Chars) :
    expectedName num h ≠ chars "index.md" := by
  intro hh
  have h1 := chapterMatch_expectedName num h
  rw [hh, chapterMatch_index_md] at h1
  cases h1

/-- Rebuilding the indexes from the same chapter list over a filesystem that
already holds exactly those index documents changes nothing. -/
theorem build_index_files_fixpoint {fs : FS} {t0 : Nat × Chars × Chars}
    {rest : List (Nat × Chars × Chars)}
    (hwfr : dirWF fs.root) (hwfd : dirWF fs.docs)
    (h1 : lookupFile fs.root (chars "index.md") = some (siteIndexText t0.2.1 (t0 :: rest)))
    (h2 : lookupFile fs.docs (chars "_index.md") = some (docsIndexText (t0 :: rest)))
    (h3 : fs.contentIndex = some (rootIndexText t0.2.1 (t0 :: rest))) :
    (build_index_files fs (t0 :: rest)).1 = fs := by
  unfold build_index_files
  simp only [writeFile_noop hwfr h1, writeFile_noop hwfd h2, ← h3]

theorem candsOfNames_mem_iff {names : List Chars} {p : Nat × Chars} :
    p ∈ candsOfNames names ↔ p.2 ∈ names ∧ chapterMatch p.2 = some p.1 := by
  constructor
  · intro h
    obtain ⟨hk, hm⟩ := candsOfNames_key h
    exact ⟨hm, hk⟩
  · rintro ⟨hm, hk⟩
    unfold candsOfNames
    rw [List.mem_filterMap]
    exact ⟨p.2, hm, by rw [hk, Option.map_some']⟩

theorem candsOfNames_append (a b : List Chars) :
    candsOfNames (a ++ b) = candsOfNames a ++ candsOfNames b := by
  unfold candsOfNames
  rw [List.filterMap_append]

theorem renName_key : ∀ {assoc : List (Chars × Chars)},
    (assoc.map Prod.fst).Nodup → ∀ {a b : Chars}, (a, b) ∈ assoc → renName assoc a = b
  | [], _, a, b, h => by cases h
  | (x, y) :: rest, hnd, a, b, h => by
    rw [List.map_cons] at hnd
    obtain ⟨hx, hndrest⟩ := List.nodup_cons.1 hnd
    rw [renName_cons]
    rcases List.mem_cons.1 h with heq | h
    · injection heq with heq1 heq2
      rw [if_pos heq1.symm, heq2]
    · have hxa : x ≠ a := by
        intro hh
        exact hx (hh ▸ List.mem_map.2 ⟨(a, b), h, rfl⟩)
      rw [if_neg hxa]
      exact renName_key hndrest h

theorem renName_mem_values {assoc : List (Chars × Chars)} {m : Chars}
    (h : m ∈ assoc.map Prod.fst) : renName assoc m ∈ assoc.map Prod.snd := by
  induction assoc with
  | nil => cases h
  | cons p rest ih =>
    obtain ⟨x, y⟩ := p
    rw [renName_cons]
    rw [List.map_cons] at h ⊢
    by_cases hx : x = m
    · rw [if_pos hx]
      exact List.mem_cons_self y _
    · rw [if_neg hx]
      rcases List.mem_cons.1 h with heq | h
      · exact absurd heq.symm hx
      · exact List.mem_cons_of_mem y (ih h)

theorem perm_of_nodup_mem_iff {l1 l2 : List (Nat × Chars)} (h1 : l1.Nodup) (h2 : l2.Nodup)
    (h : ∀ a, a ∈ l1 ↔ a ∈ l2) : l1.Perm l2 := by
  refine List.perm_of_nodup_nodup_toFinset_eq h1 h2 ?_
  ext a
  simp [h a]


theorem gatherGo_nil (root : Dir) (idx : Nat) :
    gatherGo root [] idx = (root, [], .ok []) := rfl

theorem writeDocsCopies_nil (root docs : Dir) :
    writeDocsCopies root docs [] = (docs, [], .ok ()) := rfl

theorem mem_sortedCandNames_of {root : Dir} {m : Chars} {n : Nat}
    (hm : m ∈ dirNames root) (hn : chapterMatch m = some n) :
    m ∈ sortedCandNames root := by
  unfold sortedCandNames
  have h1 : (n, m) ∈ chapterCandidates root := by
    rw [chapterCandidates_eq]
    exact candsOfNames_mem_iff.2 ⟨hm, hn⟩
  have h2 : (n, m) ∈ sortByKey (chapterCandidates root) := (sortByKey_perm _).symm.mem_iff.1 h1
  exact List.mem_map.2 ⟨(n, m), h2, rfl⟩

/-- Full postcondition of a successful run: both trees are well formed, the
chapter numbers are `1..N`, every chapter ends canonical in both trees,
rediscovery returns exactly the chapter names, an empty chapter list leaves
the filesystem untouched, and otherwise the three index documents hold the
generated texts. -/
theorem main'_ok_spec {fs : FS} (hwfr : dirWF fs.root) (hwfd : dirWF fs.docs)
    (hok : (main' fs).result = .ok ()) :
    dirWF (main' fs).fs.root ∧ dirWF (main' fs).fs.docs ∧
    (main' fs).chaps.map (fun t => t.1) = List.range' 1 (main' fs).chaps.length ∧
    (∀ t ∈ (main' fs).chaps, t.2.2 = expectedName t.1 t.2.1 ∧
      ∃ c, lookupFile (main' fs).fs.root t.2.2 = some c ∧ normalizeText c = some (c, t.2.1) ∧
        lookupFile (main' fs).fs.docs (chapterDocName t.1) = some c) ∧
    sortedCandNames (main' fs).fs.root = (main' fs).chaps.map (fun t => t.2.2) ∧
    ((main' fs).chaps = [] → (main' fs).fs = fs) ∧
    (∀ t0 rest, (main' fs).chaps = t0 :: rest →
      lookupFile (main' fs).fs.root (chars "index.md") =
        some (siteIndexText t0.2.1 (main' fs).chaps) ∧
      lookupFile (main' fs).fs.docs (chars "_index.md") =
        some (docsIndexText (main' fs).chaps) ∧
      (main' fs).fs.contentIndex = some (rootIndexText t0.2.1 (main' fs).chaps)) := by
  unfold main' at hok ⊢
  cases hg : gather_chapters fs.root with
  | mk root1 p1 =>
    obtain ⟨evs1, r1⟩ := p1
    rw [hg] at hok
    cases r1 with
    | error e => simp at hok
    | ok chs =>
      simp only [] at hok ⊢
      clear hok
      have hgg : gatherGo fs.root (sortedCandNames fs.root) 1 = (root1, evs1, .ok chs) := hg
      obtain ⟨ih1, ih2, ih3, ih4, ih5⟩ := gatherGo_ok _ _ _ hgg
        hwfr (sortedCandNames_nodup hwfr) (fun m hm => (sortedCandNames_mem hm).1)
      have hlen : chs.length = (sortedCandNames fs.root).length := by
        have h0 := congrArg List.length ih1
        simpa using h0
      have hnumnd : (List.map (fun t => t.1) chs).Nodup := by
        rw [ih1]
        exact (List.pairwise_lt_range' 1 ((sortedCandNames fs.root).length)).imp Nat.ne_of_lt
      cases hw : writeDocsCopies root1 fs.docs chs with
      | mk docs1 p2 =>
        obtain ⟨evs2, r2⟩ := p2
        obtain ⟨hr2, hwfd1, hcopy, hdframe⟩ := writeDocsCopies_ok chs root1 fs.docs hw
          (fun t ht => (ih2 t ht).2.imp (fun c hc => hc.1)) hwfd hnumnd
        subst hr2
        cases hchs : chs with
        | nil =>
          subst hchs
          have hcands : sortedCandNames fs.root = [] := List.length_eq_zero.1 hlen.symm
          rw [hcands, gatherGo_nil] at hgg
          injection hgg with hg1 hg2
          injection hg2 with hg2 hg3
          subst hg1
          subst hg2
          rw [writeDocsCopies_nil] at hw
          injection hw with hw1 hw2
          injection hw2 with hw2 hw3
          subst hw1
          subst hw2
          refine ⟨hwfr, hwfd, rfl, ?_, ?_, fun _ => rfl, ?_⟩
          · intro t ht
            exact absurd ht (List.not_mem_nil t)
          · show sortedCandNames fs.root = ([] : List Chars)
            exact hcands
          · intro t0 rest h
            have h2 : ([] : List (Nat × Chars × Chars)) = t0 :: rest := h
            exact List.noConfusion h2
        | cons t0 rest =>
          subst hchs
          have htne : ∀ t ∈ (t0 :: rest), t.2.2 ≠ chars "index.md" := by
            intro t ht
            rw [(ih2 t ht).1]
            exact expectedName_ne_index_md t.1 t.2.1
          have hmne : ∀ t ∈ (t0 :: rest), chapterDocName t.1 ≠ chars "_index.md" :=
            fun t _ => chapterDocName_ne_underscore_index t.1
          refine ⟨?_, ?_, ?_, ?_, ?_, ?_, ?_⟩
          · show dirWF (writeFile root1 (chars "index.md") (siteIndexText t0.2.1 (t0 :: rest)))
            exact dirWF_writeFile ih4 _ _
          · show dirWF (writeFile docs1 (chars "_index.md") (docsIndexText (t0 :: rest)))
            exact dirWF_writeFile hwfd1 _ _
          · show List.map (fun t => t.1) (t0 :: rest) = List.range' 1 (t0 :: rest).length
            rw [ih1, hlen]
          · show ∀ t ∈ (t0 :: rest), t.2.2 = expectedName t.1 t.2.1 ∧
              ∃ c, lookupFile (writeFile root1 (chars "index.md")
                  (siteIndexText t0.2.1 (t0 :: rest))) t.2.2 = some c ∧
                normalizeText c = some (c, t.2.1) ∧
                lookupFile (writeFile docs1 (chars "_index.md")
                  (docsIndexText (t0 :: rest))) (chapterDocName t.1) = some c
            intro t ht
            obtain ⟨hcan, c, hc1, hc2⟩ := ih2 t ht
            refine ⟨hcan, c, ?_, hc2, ?_⟩
            · rw [lookupFile_writeFile_other _ _ (htne t ht)]
              exact hc1
            · rw [lookupFile_writeFile_other _ _ (hmne t ht), hcopy t ht]
              exact hc1
          · show sortedCandNames (writeFile root1 (chars "index.md")
                (siteIndexText t0.2.1 (t0 :: rest))) = List.map (fun t => t.2.2) (t0 :: rest)
            have hRwf : dirWF (writeFile root1 (chars "index.md")
                (siteIndexText t0.2.1 (t0 :: rest))) := dirWF_writeFile ih4 _ _
            have hkeys : (((sortedCandNames fs.root).zip
                (List.map (fun t => t.2.2) (t0 :: rest))).map Prod.fst) =
                sortedCandNames fs.root := by
              refine List.map_fst_zip _ _ (le_of_eq ?_)
              rw [List.length_map, hlen]
            have hvals : (((sortedCandNames fs.root).zip
                (List.map (fun t => t.2.2) (t0 :: rest))).map Prod.snd) =
                List.map (fun t => t.2.2) (t0 :: rest) := by
              refine List.map_snd_zip _ _ (le_of_eq ?_)
              rw [List.length_map, hlen]
            have hmemiff : ∀ p : Nat × Chars,
                p ∈ candsOfNames (dirNames (writeFile root1 (chars "index.md")
                  (siteIndexText t0.2.1 (t0 :: rest)))) ↔
                p ∈ List.map (fun t => (t.1, t.2.2)) (t0 :: rest) := by
              intro p
              rw [candsOfNames_mem_iff]
              constructor
              · rintro ⟨hmem, hmatch⟩
                have hpne : p.2 ≠ chars "index.md" := by
                  intro hh
                  rw [hh, chapterMatch_index_md] at hmatch
                  cases hmatch
                have hmem1 : p.2 ∈ dirNames root1 := by
                  by_cases hidx : chars "index.md" ∈ dirNames root1
                  · rwa [dirNames_writeFile_mem hidx] at hmem
                  · rw [dirNames_writeFile_not_mem hidx] at hmem
                    rcases List.mem_append.1 hmem with hmm | hmm
                    · exact hmm
                    · exact absurd (List.mem_singleton.1 hmm) hpne
                rw [ih3] at hmem1
                obtain ⟨m, hmroot, hmren⟩ := List.mem_map.1 hmem1
                by_cases hmc : m ∈ sortedCandNames fs.root
                · have hmem2 : p.2 ∈ List.map (fun t => t.2.2) (t0 :: rest) := by
                    rw [← hvals, ← hmren]
                    refine renName_mem_values ?_
                    rw [hkeys]
                    exact hmc
                  obtain ⟨t, ht, hteq⟩ := List.mem_map.1 hmem2
                  have hcm : chapterMatch p.2 = some t.1 := by
                    rw [← hteq]
                    show chapterMatch t.2.2 = some t.1
                    rw [(ih2 t ht).1]
                    exact chapterMatch_expectedName t.1 t.2.1
                  rw [hcm] at hmatch
                  injection hmatch with h5
                  refine List.mem_map.2 ⟨t, ht, ?_⟩
                  show (t.1, t.2.2) = p
                  exact Prod.ext h5 hteq
                · have hren : renName ((sortedCandNames fs.root).zip
                      (List.map (fun t => t.2.2) (t0 :: rest))) m = m := by
                    refine renName_not_mem ?_
                    rw [hkeys]
                    exact hmc
                  rw [hren] at hmren
                  subst hmren
                  exact absurd (mem_sortedCandNames_of hmroot hmatch) hmc
              · intro hp
                obtain ⟨t, ht, hteq⟩ := List.mem_map.1 hp
                obtain ⟨hcan, c, hc1, hc2⟩ := ih2 t ht
                have h2 : p.2 = t.2.2 := by rw [← hteq]
                have h1 : p.1 = t.1 := by rw [← hteq]
                constructor
                · rw [h2]
                  refine mem_dirNames_of_lookupFile (c := c) ?_
                  rw [lookupFile_writeFile_other _ _ (htne t ht)]
                  exact hc1
                · rw [h2, h1, hcan]
                  exact chapterMatch_expectedName t.1 t.2.1
            have hperm : (candsOfNames (dirNames (writeFile root1 (chars "index.md")
                (siteIndexText t0.2.1 (t0 :: rest))))).Perm
                (List.map (fun t => (t.1, t.2.2)) (t0 :: rest)) := by
              refine perm_of_nodup_mem_iff ?_ ?_ hmemiff
              · exact List.Nodup.of_map (fun p => p.2)
                  ((candsOfNames_snd_sublist _).nodup hRwf)
              · refine List.Nodup.of_map (fun p => p.1) ?_
                rw [List.map_map]
                exact hnumnd
            have hp1 : (List.map (fun t => t.1) (t0 :: rest)).Pairwise (· < ·) := by
              rw [ih1]
              exact List.pairwise_lt_range' 1 ((sortedCandNames fs.root).length)
            have hsorted : (List.map (fun t => (t.1, t.2.2)) (t0 :: rest)).Pairwise
                (fun a b => a.1 < b.1) :=
              List.pairwise_map.2 (List.pairwise_map.1 hp1)
            unfold sortedCandNames
            rw [chapterCandidates_eq, sortByKey_eq_of_perm_sorted hperm hsorted,
              List.map_map]
            rfl
          · intro h
            have h2 : (t0 :: rest : List (Nat × Chars × Chars)) = [] := h
            exact List.noConfusion h2
          · intro t0' rest' hh
            have h2 : (t0 :: rest : List (Nat × Chars × Chars)) = t0' :: rest' := hh
            injection h2 with h2a h2b
            subst h2a
            refine ⟨?_, ?_, rfl⟩
            · show lookupFile (writeFile root1 (chars "index.md")
                  (siteIndexText t0.2.1 (t0 :: rest))) (chars "index.md") =
                some (siteIndexText t0.2.1 (t0 :: rest))
              exact lookupFile_writeFile_self _ _ _
            · show lookupFile (writeFile docs1 (chars "_index.md")
                  (docsIndexText (t0 :: rest))) (chars "_index.md") =
                some (docsIndexText (t0 :: rest))
              exact lookupFile_writeFile_self _ _ _

theorem map_fst_range'_get {chs : List (Nat × Chars × Chars)} {s : Nat}
    (h : List.map (fun t => t.1) chs = List.range' s chs.length) :
    ∀ j (hj : j < chs.length), (chs.get ⟨j, hj⟩).1 = s + j := by
  intro j hj
  have h2 : (List.map (fun t => t.1) chs)[j]? = (List.range' s chs.length)[j]? := by rw [h]
  have hj2 : j < (List.map (fun t => t.1) chs).length := by simpa using hj
  have hj3 : j < (List.range' s chs.length).length := by simpa using hj
  rw [List.getElem?_eq_getElem hj2, List.getElem?_eq_getElem hj3] at h2
  injection h2 with h3
  rw [List.getElem_map, List.getElem_range'] at h3
  simp only [one_mul] at h3
  rw [List.get_eq_getElem]
  exact h3

theorem main'_eq_of_steps {fs1 : FS} {chs : List (Nat × Chars × Chars)} {evs2 : List Ev}
    (hg : gather_chapters fs1.root = (fs1.root, [], .ok chs))
    (hw : writeDocsCopies fs1.root fs1.docs chs = (fs1.docs, evs2, .ok ())) :
    main' fs1 = ⟨(build_index_files fs1 chs).1,
      ([] : List Ev) ++ evs2 ++ (build_index_files fs1 chs).2, chs, .ok ()⟩ := by
  unfold main'
  rw [hg]
  simp only []
  rw [hw]

/-- Running the pipeline again on the filesystem a successful run left behind
reproduces that filesystem exactly, succeeds, and finds the same chapters. -/
theorem main'_twice {fs : FS} (hwfr : dirWF fs.root) (hwfd : dirWF fs.docs)
    (hok : (main' fs).result = .ok ()) :
    (main' (main' fs).fs).fs = (main' fs).fs ∧
    (main' (main' fs).fs).result = .ok () ∧
    (main' (main' fs).fs).chaps = (main' fs).chaps := by
  obtain ⟨h1, h2, h3, h4, h5, h6, h7⟩ := main'_ok_spec hwfr hwfd hok
  have hidx : ∀ j (hj : j < (main' fs).chaps.length),
      (((main' fs).chaps).get ⟨j, hj⟩).1 = 1 + j := map_fst_range'_get h3
  have hgfix : gatherGo (main' fs).fs.root
      (List.map (fun t => t.2.2) (main' fs).chaps) 1 =
      ((main' fs).fs.root, [], .ok (main' fs).chaps) :=
    gatherGo_fixpoint _ _ _ hidx
      (fun t ht => ⟨(h4 t ht).1, ((h4 t ht).2).imp (fun c hc => ⟨hc.1, hc.2.1⟩)⟩)
  have hg2 : gather_chapters (main' fs).fs.root =
      ((main' fs).fs.root, [], .ok (main' fs).chaps) := by
    show gatherGo (main' fs).fs.root (sortedCandNames (main' fs).fs.root) 1 = _
    rw [h5]
    exact hgfix
  obtain ⟨evs2, hwfix⟩ := writeDocsCopies_fixpoint (main' fs).chaps
    (main' fs).fs.root (main' fs).fs.docs h2
    (fun t ht => ((h4 t ht).2).imp (fun c hc => ⟨hc.1, hc.2.2⟩))
  have hrun2 := main'_eq_of_steps hg2 hwfix
  rw [hrun2]
  refine ⟨?_, rfl, rfl⟩
  show (build_index_files (main' fs).fs (main' fs).chaps).1 = (main' fs).fs
  cases hc : (main' fs).chaps with
  | nil => rw [build_index_files_nil]
  | cons t0 rest =>
    obtain ⟨hi1, hi2, hi3⟩ := h7 t0 rest hc
    rw [hc] at hi1 hi2 hi3
    exact build_index_files_fixpoint h1 h2 hi1 hi2 hi3

/-! ### Specification-side reading of heading extraction (for claim C3) -/

/-- One step of the spec-worded scan: carry the fence flag and the first
heading found so far; tests are applied to the stripped line. -/
def findFirstH1SpecStep (st : Bool × Option (Nat × Chars)) (p : Nat × Chars) :
    Bool × Option (Nat × Chars) :=
  if st.2.isSome then st
  else if startsWith (pyStrip p.2) (chars "```") then (!st.1, none)
  else if st.1 then (st.1, none)
  else if startsWith (pyStrip p.2) (chars "# ") then
    (st.1, some (p.1, pyStrip ((pyStrip p.2).drop 2)))
  else (st.1, none)

/-- The spec sentence as a function: scan the numbered lines in order with a
fence flag, returning the first heading line found outside a fence. -/
def findFirstH1Spec (lines : List Chars) : Option (Nat × Chars) :=
  (List.foldl findFirstH1SpecStep (false, none) lines.enum).2

theorem findFirstH1SpecStep_found : ∀ (l : List (Nat × Chars)) (b : Bool) (r : Nat × Chars),
    (List.foldl findFirstH1SpecStep (b, some r) l).2 = some r
  | [], _, _ => rfl
  | p :: l, b, r => by
    show (List.foldl findFirstH1SpecStep (findFirstH1SpecStep (b, some r) p) l).2 = some r
    have h1 : findFirstH1SpecStep (b, some r) p = (b, some r) := rfl
    rw [h1]
    exact findFirstH1SpecStep_found l b r

theorem findFirstH1_go_spec : ∀ (lines : List Chars) (inCode : Bool) (idx : Nat),
    (List.foldl findFirstH1SpecStep (inCode, none) (List.enumFrom idx lines)).2 =
      find_first_h1_go inCode idx lines
  | [], _, _ => rfl
  | line :: rest, inCode, idx => by
    show (List.foldl findFirstH1SpecStep
        (findFirstH1SpecStep (inCode, none) (idx, line)) (List.enumFrom (idx + 1) rest)).2 =
      (if startsWith (pyStrip line) (chars "```") then find_first_h1_go (!inCode) (idx + 1) rest
       else if inCode then find_first_h1_go inCode (idx + 1) rest
       else if startsWith (pyStrip line) (chars "# ") then
         some (idx, pyStrip ((pyStrip line).drop 2))
       else find_first_h1_go inCode (idx + 1) rest)
    by_cases hf : startsWith (pyStrip line) (chars "```")
    · rw [if_pos hf]
      have hs : findFirstH1SpecStep (inCode, none) (idx, line) = (!inCode, none) := by
        unfold findFirstH1SpecStep
        rw [if_neg (by simp), if_pos hf]
      rw [hs]
      exact findFirstH1_go_spec rest (!inCode) (idx + 1)
    · rw [if_neg hf]
      by_cases hI : inCode
      · rw [if_pos hI]
        have hs : findFirstH1SpecStep (inCode, none) (idx, line) = (inCode, none) := by
          unfold findFirstH1SpecStep
          rw [if_neg (by simp), if_neg hf, if_pos hI]
        rw [hs]
        exact findFirstH1_go_spec rest inCode (idx + 1)
      · rw [if_neg hI]
        by_cases hh : startsWith (pyStrip line) (chars "# ")
        · rw [if_pos hh]
          have hs : findFirstH1SpecStep (inCode, none) (idx, line) =
              (inCode, some (idx, pyStrip ((pyStrip line).drop 2))) := by
            unfold findFirstH1SpecStep
            rw [if_neg (by simp), if_neg hf, if_neg hI, if_pos hh]
          rw [hs]
          exact findFirstH1SpecStep_found _ _ _
        · rw [if_neg hh]
          have hs : findFirstH1SpecStep (inCode, none) (idx, line) = (inCode, none) := by
            unfold findFirstH1SpecStep
            rw [if_neg (by simp), if_neg hf, if_neg hI, if_neg hh]
          rw [hs]
          exact findFirstH1_go_spec rest inCode (idx + 1)

/-! ### Concrete fixtures used by the claim witnesses -/

/-- The spec's worked two-chapter scenario. -/
def sampleFS : FS :=
  ⟨[(chars "3-Intro.md", chars "# Intro\nHello"), (chars "1-Setup.md", chars "# Setup\nWorld")],
   [], none⟩

/-- A root whose first rename target is already occupied by another file. -/
def collisionFS : FS :=
  ⟨[(chars "1-a.md", chars "# b\nX"), (chars "01 - b.md", chars "# c\nY")], [], none⟩

/-- A root with a chapter file that has no heading. -/
def missingFS : FS := ⟨[(chars "1-x.md", chars "plain")], [], none⟩

/-- A root with a single chapter already in canonical name and content form. -/
def canonicalRoot : Dir := [(chars "01 - Setup.md", chars "# Setup\n\nWorld\n")]

/-! ### The claims -/

/-- C1: for every valid input set (well-formed root and docs trees, first run
succeeds), running the full pipeline a second time immediately afterwards
changes no file: the filesystem after the second run is byte-identical to the
state left by the first run, the second run succeeds, and it reports the same
chapters. -/
theorem claim_C1 {fs : FS} (hwfr : dirWF fs.root) (hwfd : dirWF fs.docs)
    (hok : (main' fs).result = .ok ()) :
    (main' (main' fs).fs).fs = (main' fs).fs ∧
    (main' (main' fs).fs).result = .ok () ∧
    (main' (main' fs).fs).chaps = (main' fs).chaps :=
  main'_twice hwfr hwfd hok

theorem claim_C1_witness :
    (main' (main' sampleFS).fs).fs = (main' sampleFS).fs ∧
    (main' (main' sampleFS).fs).result = .ok () ∧
    (main' (main' sampleFS).fs).chaps = (main' sampleFS).chaps :=
  @claim_C1 sampleFS (by show (dirNames sampleFS.root).Nodup ; decide)
    (by show (dirNames sampleFS.docs).Nodup ; decide) (by rfl)

/-- C2: the discoverer sorts the matching files ascending by the integer value
of their leading digit run with a stable sort (each key class keeps its
original enumeration order), and a successful gathering pass assigns the
sequential numbers `1..N` where `N` is the number of matching files. -/
theorem claim_C2 {root : Dir} (hwf : dirWF root)
    {chs : List (Nat × Chars × Chars)}
    (h : (gather_chapters root).2.2 = .ok chs) :
    (sortByKey (chapterCandidates root)).Pairwise (fun a b => a.1 ≤ b.1) ∧
    (sortByKey (chapterCandidates root)).Perm (chapterCandidates root) ∧
    (∀ k, (sortByKey (chapterCandidates root)).filter (fun y => y.1 == k) =
      (chapterCandidates root).filter (fun y => y.1 == k)) ∧
    List.map (fun t => t.1) chs = List.range' 1 (chapterCandidates root).length := by
  have hfull : gather_chapters root =
      ((gather_chapters root).1, (gather_chapters root).2.1, .ok chs) := by
    rw [← h]
  have hgg : gatherGo root (sortedCandNames root) 1 =
      ((gather_chapters root).1, (gather_chapters root).2.1, .ok chs) := hfull
  obtain ⟨ih1, ih2, ih3, ih4, ih5⟩ := gatherGo_ok _ _ _ hgg hwf
    (sortedCandNames_nodup hwf) (fun m hm => (sortedCandNames_mem hm).1)
  have hlen2 : (sortedCandNames root).length = (chapterCandidates root).length := by
    unfold sortedCandNames
    rw [List.length_map]
    exact (sortByKey_perm _).length_eq
  refine ⟨sortByKey_sorted _, sortByKey_perm _, sortByKey_stable _, ?_⟩
  rw [ih1, hlen2]

theorem claim_C2_witness :
    (sortByKey (chapterCandidates sampleFS.root)).Pairwise (fun a b => a.1 ≤ b.1) ∧
    (sortByKey (chapterCandidates sampleFS.root)).filter (fun y => y.1 == 1) =
      (chapterCandidates sampleFS.root).filter (fun y => y.1 == 1) ∧
    List.map (fun t => t.1)
        [((1 : Nat), chars "Setup", chars "01 - Setup.md"),
         (2, chars "Intro", chars "02 - Intro.md")] =
      List.range' 1 (chapterCandidates sampleFS.root).length := by
  obtain ⟨h1, h2, h3, h4⟩ := @claim_C2 sampleFS.root
    (by show (dirNames sampleFS.root).Nodup ; decide)
    [((1 : Nat), chars "Setup", chars "01 - Setup.md"),
     (2, chars "Intro", chars "02 - Intro.md")] (by rfl)
  exact ⟨h1, h3 1, h4⟩

/-- C3 (amended): heading extraction scans the lines in order with a fence
flag, applying both the fence test and the heading test to the line stripped
of surrounding whitespace: fence state toggles on each line whose stripped
form starts with the triple-backtick marker, heading detection is suppressed
while the fence state is open, and the first remaining line whose stripped
form begins with the heading marker and a space yields the heading (the
stripped remainder after the marker). The original claim's reading, with the
tests applied to the raw line, is refuted by `claim_C3_counterexample`. -/
theorem claim_C3 : ∀ lines : List Chars, find_first_h1 lines = findFirstH1Spec lines := by
  intro lines
  unfold find_first_h1 findFirstH1Spec
  rw [← findFirstH1_go_spec lines false 0]
  rfl

/-- C3 counterexample to the literal claim: on `["  # Foo", "# Bar"]` the
extractor returns line 0, which does not begin with the heading marker,
rather than line 1, which does. -/
theorem claim_C3_counterexample :
    find_first_h1 [chars "  # Foo", chars "# Bar"] = some (0, chars "Foo") ∧
    startsWith (chars "  # Foo") (chars "# ") = false ∧
    startsWith (chars "# Bar") (chars "# ") = true := by decide

/-- C4: on success, normalization returns a trimmed non-empty heading and
rewrites the content to exactly the heading line, one blank line, and the
body (the lines after the heading line, leading blank lines stripped), with
all trailing whitespace collapsed to a single trailing newline. -/
theorem claim_C4 {text norm h : Chars} (hq : normalizeText text = some (norm, h)) :
    pyStrip h = h ∧ h ≠ [] ∧
    (∃ i, find_first_h1 ((splitlines text).dropWhile isBlank) = some (i, h) ∧
      norm = rstrip (joinLines (headingLine h ::
        [] :: ((((splitlines text).dropWhile isBlank).drop (i + 1)).dropWhile isBlank))) ++
        ['\n']) ∧
    (∃ u, norm = u ++ ['\n'] ∧ rstrip u = u) := by
  obtain ⟨⟨hne, hstrip⟩, hlf, body, hbodyLF, hbodyHead, hnorm⟩ := normalizeText_shape hq
  refine ⟨hstrip, hne, ?_, rstrip (joinLines (headingLine h :: [] :: body)), hnorm,
    rstrip_idem _⟩
  unfold normalizeText at hq
  cases hf : find_first_h1 ((splitlines text).dropWhile isBlank) with
  | none => rw [hf] at hq; cases hq
  | some p =>
    obtain ⟨i, h0⟩ := p
    rw [hf] at hq
    simp only [] at hq
    injection hq with hq1
    injection hq1 with hq1 hq2
    subst hq2
    exact ⟨i, rfl, hq1.symm⟩

theorem claim_C4_witness :
    pyStrip (chars "T") = chars "T" ∧ chars "T" ≠ [] ∧
    (∃ i, find_first_h1 ((splitlines (chars "# T\nbody")).dropWhile isBlank) =
        some (i, chars "T") ∧
      chars "# T\n\nbody\n" = rstrip (joinLines (headingLine (chars "T") ::
        [] :: ((((splitlines (chars "# T\nbody")).dropWhile isBlank).drop
          (i + 1)).dropWhile isBlank))) ++ ['\n']) ∧
    (∃ u, chars "# T\n\nbody\n" = u ++ ['\n'] ∧ rstrip u = u) :=
  @claim_C4 (chars "# T\nbody") (chars "# T\n\nbody\n") (chars "T") (by rfl)

/-- C5: a chapter file already in canonical content form and already bearing
its canonical filename is left untouched: the directory is unchanged and the
event log is empty (no write and no rename). -/
theorem claim_C5 {root : Dir} {name text h : Chars} {num : Nat}
    (hl : lookupFile root name = some text)
    (hn : normalizeText text = some (text, h))
    (hc : name = expectedName num h) :
    normalize_root_file root name num = (root, [], .ok (num, h, name)) :=
  normalize_root_file_canonical hl hn hc

theorem claim_C5_witness :
    normalize_root_file canonicalRoot (chars "01 - Setup.md") 1 =
      (canonicalRoot, [], .ok (1, chars "Setup", chars "01 - Setup.md")) :=
  @claim_C5 canonicalRoot (chars "01 - Setup.md") (chars "# Setup\n\nWorld\n")
    (chars "Setup") 1 (by rfl) (by rfl) (by decide)

/-- C6: when the run fails with the filename-collision error, the process
exit status is 1 and the collision diagnostic is printed on the error
stream; nothing is written to the docs tree or the content index, `index.md`
is untouched, every recorded event is a root-file event, no chapter list is
produced, and the candidates after the failing one are untouched.  Moreover a
rename whose canonical target is already occupied by a different file always
raises exactly this error. -/
theorem claim_C6 {fs : FS} {t : Chars} (hwfr : dirWF fs.root) (hwfd : dirWF fs.docs)
    (h : (main' fs).result = .error (.nameCollision t)) :
    exitCode (main' fs).result = 1 ∧
    stderrOf (main' fs).result =
      some (chars "Error: Target filename already exists: " ++ t) ∧
    (main' fs).fs.docs = fs.docs ∧
    (main' fs).fs.contentIndex = fs.contentIndex ∧
    (∀ ev ∈ (main' fs).evs,
      (∃ a b, ev = .writeRoot a b) ∨ (∃ a b, ev = .renameRoot a b)) ∧
    (main' fs).chaps = [] ∧
    lookupFile (main' fs).fs.root (chars "index.md") =
      lookupFile fs.root (chars "index.md") ∧
    (∃ pre bad post, sortedCandNames fs.root = pre ++ bad :: post ∧
      ∀ m ∈ post, lookupFile (main' fs).fs.root m = lookupFile fs.root m) ∧
    (∀ (root : Dir) (name text norm hd : Chars) (num : Nat),
      lookupFile root name = some text → normalizeText text = some (norm, hd) →
      name ≠ expectedName num hd → expectedName num hd ∈ dirNames root →
      (normalize_root_file root name num).2.2 =
        .error (.nameCollision (expectedName num hd))) := by
  unfold main' at h ⊢
  cases hg : gather_chapters fs.root with
  | mk root1 p1 =>
    obtain ⟨evs1, r1⟩ := p1
    rw [hg] at h
    cases r1 with
    | error e =>
      simp only [] at h
      injection h with h2
      subst h2
      have hgg : gatherGo fs.root (sortedCandNames fs.root) 1 =
          (root1, evs1, .error (.nameCollision t)) := hg
      obtain ⟨hfr, hevs, pre, bad, post, hsplit, hpost⟩ := gatherGo_error _ _ _ hgg hwfr
        (sortedCandNames_nodup hwfr) (fun m hm => (sortedCandNames_mem hm).1)
      refine ⟨rfl, rfl, rfl, rfl, hevs, rfl, ?_, ⟨pre, bad, post, hsplit, hpost⟩,
        fun root name text norm hd num hl hn hne hex =>
          normalize_root_file_collision_trigger hl hn hne hex⟩
      exact hfr _ (not_mem_sortedCandNames chapterMatch_index_md) chapterMatch_index_md
    | ok chs =>
      simp only [] at h
      have hgg : gatherGo fs.root (sortedCandNames fs.root) 1 = (root1, evs1, .ok chs) := hg
      obtain ⟨ih1, ih2, ih3, ih4, ih5⟩ := gatherGo_ok _ _ _ hgg hwfr
        (sortedCandNames_nodup hwfr) (fun m hm => (sortedCandNames_mem hm).1)
      have hnumnd : (List.map (fun t => t.1) chs).Nodup := by
        rw [ih1]
        exact (List.pairwise_lt_range' 1 ((sortedCandNames fs.root).length)).imp Nat.ne_of_lt
      cases hw : writeDocsCopies root1 fs.docs chs with
      | mk docs1 p2 =>
        obtain ⟨evs2, r2⟩ := p2
        rw [hw] at h
        obtain ⟨hr2, hwfd1, hcopy, hdframe⟩ := writeDocsCopies_ok chs root1 fs.docs hw
          (fun t ht => (ih2 t ht).2.imp (fun c hc => hc.1)) hwfd hnumnd
        subst hr2
        simp at h

theorem claim_C6_witness :
    exitCode (main' collisionFS).result = 1 ∧
    stderrOf (main' collisionFS).result =
      some (chars "Error: Target filename already exists: " ++ chars "01 - b.md") ∧
    (main' collisionFS).fs.docs = collisionFS.docs ∧
    (main' collisionFS).fs.contentIndex = collisionFS.contentIndex ∧
    (main' collisionFS).chaps = [] := by
  obtain ⟨h1, h2, h3, h4, h5, h6, h7, h8, h9⟩ := @claim_C6 collisionFS (chars "01 - b.md")
    (by show (dirNames collisionFS.root).Nodup ; decide)
    (by show (dirNames collisionFS.docs).Nodup ; decide) (by rfl)
  exact ⟨h1, h2, h3, h4, h6⟩

/-- C7: when the run fails with the missing-heading error, it aborts the
whole run: exit status 1, a traceback on the error stream, nothing written to
the docs tree or the content index, `index.md` untouched, only root-file
events, no chapter list, and the candidates after the failing one untouched.
Moreover a chapter file whose text has no usable heading always raises
exactly this error and leaves the directory unchanged. -/
theorem claim_C7 {fs : FS} (hwfr : dirWF fs.root) (hwfd : dirWF fs.docs)
    (h : (main' fs).result = .error .missingHeading) :
    exitCode (main' fs).result = 1 ∧
    stderrOf (main' fs).result =
      some (chars "Traceback (most recent call last): ... ValueError: No H1 heading found") ∧
    (main' fs).fs.docs = fs.docs ∧
    (main' fs).fs.contentIndex = fs.contentIndex ∧
    (∀ ev ∈ (main' fs).evs,
      (∃ a b, ev = .writeRoot a b) ∨ (∃ a b, ev = .renameRoot a b)) ∧
    (main' fs).chaps = [] ∧
    lookupFile (main' fs).fs.root (chars "index.md") =
      lookupFile fs.root (chars "index.md") ∧
    (∃ pre bad post, sortedCandNames fs.root = pre ++ bad :: post ∧
      ∀ m ∈ post, lookupFile (main' fs).fs.root m = lookupFile fs.root m) ∧
    (∀ (root : Dir) (name text : Chars) (num : Nat),
      lookupFile root name = some text → normalizeText text = none →
      normalize_root_file root name num = (root, [], .error .missingHeading)) := by
  unfold main' at h ⊢
  cases hg : gather_chapters fs.root with
  | mk root1 p1 =>
    obtain ⟨evs1, r1⟩ := p1
    rw [hg] at h
    cases r1 with
    | error e =>
      simp only [] at h
      injection h with h2
      subst h2
      have hgg : gatherGo fs.root (sortedCandNames fs.root) 1 =
          (root1, evs1, .error .missingHeading) := hg
      obtain ⟨hfr, hevs, pre, bad, post, hsplit, hpost⟩ := gatherGo_error _ _ _ hgg hwfr
        (sortedCandNames_nodup hwfr) (fun m hm => (sortedCandNames_mem hm).1)
      refine ⟨rfl, rfl, rfl, rfl, hevs, rfl, ?_, ⟨pre, bad, post, hsplit, hpost⟩,
        fun root name text num hl hn => normalize_root_file_missing hl hn⟩
      exact hfr _ (not_mem_sortedCandNames chapterMatch_index_md) chapterMatch_index_md
    | ok chs =>
      simp only [] at h
      have hgg : gatherGo fs.root (sortedCandNames fs.root) 1 = (root1, evs1, .ok chs) := hg
      obtain ⟨ih1, ih2, ih3, ih4, ih5⟩ := gatherGo_ok _ _ _ hgg hwfr
        (sortedCandNames_nodup hwfr) (fun m hm => (sortedCandNames_mem hm).1)
      have hnumnd : (List.map (fun t => t.1) chs).Nodup := by
        rw [ih1]
        exact (List.pairwise_lt_range' 1 ((sortedCandNames fs.root).length)).imp Nat.ne_of_lt
      cases hw : writeDocsCopies root1 fs.docs chs with
      | mk docs1 p2 =>
        obtain ⟨evs2, r2⟩ := p2
        rw [hw] at h
        obtain ⟨hr2, hwfd1, hcopy, hdframe⟩ := writeDocsCopies_ok chs root1 fs.docs hw
          (fun t ht => (ih2 t ht).2.imp (fun c hc => hc.1)) hwfd hnumnd
        subst hr2
        simp at h

theorem claim_C7_witness :
    exitCode (main' missingFS).result = 1 ∧
    (main' missingFS).fs.docs = missingFS.docs ∧
    (main' missingFS).fs.contentIndex = missingFS.contentIndex ∧
    (main' missingFS).chaps = [] := by
  obtain ⟨h1, h2, h3, h4, h5, h6, h7, h8, h9⟩ := @claim_C7 missingFS
    (by show (dirNames missingFS.root).Nodup ; decide)
    (by show (dirNames missingFS.docs).Nodup ; decide) (by rfl)
  exact ⟨h1, h3, h4, h6⟩

/-- C8: after a successful run, each chapter's documentation mirror
`docs/chapter-NN.md` exists and its content is byte-for-byte the chapter's
post-normalization root file content. -/
theorem claim_C8 {fs : FS} (hwfr : dirWF fs.root) (hwfd : dirWF fs.docs)
    (hok : (main' fs).result = .ok ()) :
    ∀ t ∈ (main' fs).chaps, ∃ c,
      lookupFile (main' fs).fs.root t.2.2 = some c ∧
      lookupFile (main' fs).fs.docs (chapterDocName t.1) = some c := by
  obtain ⟨h1, h2, h3, h4, h5, h6, h7⟩ := main'_ok_spec hwfr hwfd hok
  intro t ht
  obtain ⟨hcan, c, hc1, hc2, hc3⟩ := h4 t ht
  exact ⟨c, hc1, hc3⟩

theorem claim_C8_witness :
    ∃ c, lookupFile (main' sampleFS).fs.root (chars "01 - Setup.md") = some c ∧
      lookupFile (main' sampleFS).fs.docs (chapterDocName 1) = some c :=
  @claim_C8 sampleFS (by show (dirNames sampleFS.root).Nodup ; decide)
    (by show (dirNames sampleFS.docs).Nodup ; decide) (by rfl)
    (1, chars "Setup", chars "01 - Setup.md") (by decide)

/-- C9: the sanitized filename component contains none of the characters
illegal in filenames, every internal whitespace character is a plain space
with no two adjacent, and it is trimmed; the canonical filename is the
two-digit-padded number, a spaced hyphen, the sanitized heading and the
`.md` suffix, where the padded number is at least two digits, parses back to
the chapter number, and widens naturally from 100 up. -/
theorem claim_C9 (heading : Chars) (num : Nat) :
    (∀ c ∈ sanitize_filename heading, invalidFilenameChars.contains c = false) ∧
    (∀ c ∈ sanitize_filename heading, isPySpace c = true → c = ' ') ∧
    (sanitize_filename heading).Chain' (fun a b => isPySpace a = true → isPySpace b = false) ∧
    pyStrip (sanitize_filename heading) = sanitize_filename heading ∧
    expectedName num heading =
      fmt02 num ++ chars " - " ++ sanitize_filename heading ++ chars ".md" ∧
    2 ≤ (fmt02 num).length ∧
    digitsToNat (fmt02 num) = num ∧
    (100 ≤ num → fmt02 num = pyStrNat num) :=
  ⟨sanitize_no_invalid heading, sanitize_space_eq heading, sanitize_chain heading,
   sanitize_trimmed heading, rfl, fmt02_length num, digitsToNat_fmt02 num, fmt02_wide num⟩

theorem claim_C9_witness :
    pyStrip (sanitize_filename (chars " A \\ B:C ")) = sanitize_filename (chars " A \\ B:C ") ∧
    2 ≤ (fmt02 100).length ∧ digitsToNat (fmt02 100) = 100 ∧ fmt02 100 = pyStrNat 100 := by
  obtain ⟨h1, h2, h3, h4, h5, h6, h7, h8⟩ := claim_C9 (chars " A \\ B:C ") 100
  exact ⟨h4, h6, h7, h8 (by decide)⟩

/-- C10: after a successful run every chapter's final root filename itself
matches the discovery pattern and parses back to the chapter's assigned
number, so a second discovery pass over the resulting root finds exactly the
same files in the same order and a second run assigns the same numbers. -/
theorem claim_C10 {fs : FS} (hwfr : dirWF fs.root) (hwfd : dirWF fs.docs)
    (hok : (main' fs).result = .ok ()) :
    (∀ t ∈ (main' fs).chaps, chapterMatch t.2.2 = some t.1) ∧
    sortedCandNames (main' fs).fs.root = (main' fs).chaps.map (fun t => t.2.2) ∧
    (main' (main' fs).fs).chaps = (main' fs).chaps := by
  obtain ⟨h1, h2, h3, h4, h5, h6, h7⟩ := main'_ok_spec hwfr hwfd hok
  refine ⟨?_, h5, (main'_twice hwfr hwfd hok).2.2⟩
  intro t ht
  rw [(h4 t ht).1]
  exact chapterMatch_expectedName t.1 t.2.1

theorem claim_C10_witness :
    chapterMatch (chars "01 - Setup.md") = some 1 ∧
    sortedCandNames (main' sampleFS).fs.root =
      (main' sampleFS).chaps.map (fun t => t.2.2) ∧
    (main' (main' sampleFS).fs).chaps = (main' sampleFS).chaps := by
  obtain ⟨h1, h2, h3⟩ := @claim_C10 sampleFS (by show (dirNames sampleFS.root).Nodup ; decide)
    (by show (dirNames sampleFS.docs).Nodup ; decide) (by rfl)
  exact ⟨h1 (1, chars "Setup", chars "01 - Setup.md") (by decide), h2, h3⟩
